import Mathlib

/-!
Shallow embedding of `scripts/deps.py` (the workspace dependency hoister,
restorer and sorter of the kintsu repository), together with proofs about
the claims on its behaviour.

Modelling conventions:
* A tomlkit document, table or inline table is a finite ordered mapping
  with string keys; we model each as an association list preserving
  insertion order, matching Python `dict` semantics (`getF` is `__getitem__`
  or `.get`, `setF` is `__setitem__` which updates the first matching key in
  place or appends, `delF` is `del`).
* tomlkit distinguishes `Table` from `InlineTable`; the distinction is
  observable (in `isinstance` checks and in serialized output), so the model
  keeps both constructors.
* Python truthiness of the values involved (`spec.get("path")`,
  `spec.get("workspace")`) is modelled by `truthy`.
* On inputs where the script would raise (for example a root `workspace`
  key holding a string), the model leaves the data unchanged; no claim
  exercises those crash paths.
-/

namespace Kintsu

/-- Association-list lookup: Python `d.get(k)` / `k in d` (first match). -/
def getF {α : Type} : List (String × α) → String → Option α
  | [], _ => none
  | (k, v) :: rest, key => if k = key then some v else getF rest key

/-- Association-list store: Python `d[k] = v` (update first match in place,
else append at the end). -/
def setF {α : Type} : List (String × α) → String → α → List (String × α)
  | [], key, v => [(key, v)]
  | (k, v') :: rest, key, v =>
      if k = key then (k, v) :: rest else (k, v') :: setF rest key v

/-- Association-list delete: Python `del d[k]` (remove first match). -/
def delF {α : Type} : List (String × α) → String → List (String × α)
  | [], _ => []
  | (k, v') :: rest, key =>
      if k = key then rest else (k, v') :: delF rest key

/-- Apply `f` to the value at `key` when present, else leave the list
unchanged (in-place mutation of a looked-up entry). -/
def updAt {α : Type} (fs : List (String × α)) (key : String) (f : α → α) :
    List (String × α) :=
  match getF fs key with
  | some v => setF fs key (f v)
  | none => fs

/-- A TOML value as manipulated by `deps.py`: a string, a boolean, an array
of strings (member lists), a tomlkit `Table`, or a tomlkit `InlineTable`. -/
inductive Val : Type where
  | str (s : String)
  | boolean (b : Bool)
  | arr (xs : List String)
  | table (fs : List (String × Val))
  | inlineTable (fs : List (String × Val))

/-- A document or table body: ordered string-keyed fields. -/
abbrev Fields := List (String × Val)

/-- A whole manifest document (tomlkit document, itself table-like). -/
abbrev Doc := Fields

/-- Python truthiness of a TOML value. -/
def truthy : Val → Bool
  | .str s => s ≠ ""
  | .boolean b => b
  | .arr xs => !xs.isEmpty
  | .table fs => !fs.isEmpty
  | .inlineTable fs => !fs.isEmpty

/-- Truthiness of `d.get(k)` (missing key is `None`, falsy). -/
def truthyOpt : Option Val → Bool
  | none => false
  | some v => truthy v

/-- `isinstance(spec, (Table, InlineTable))`. -/
def isTableLike : Val → Bool
  | .table _ => true
  | .inlineTable _ => true
  | _ => false

/-- `spec.get(k)` on a table-like value (`none` otherwise). -/
def tblGet : Val → String → Option Val
  | .table fs, k => getF fs k
  | .inlineTable fs, k => getF fs k
  | _, _ => none

/-- Mutate the fields of a table-like value in place; other values are
untouched. -/
def updTbl : Val → (Fields → Fields) → Val
  | .table fs, f => .table (f fs)
  | .inlineTable fs, f => .inlineTable (f fs)
  | v, _ => v

/-- `SECTIONS` from `deps.py`. -/
def SECTIONS : List String := ["dependencies", "dev-dependencies", "build-dependencies"]

/-- `extract_version`: a bare string is its own version; a table-like spec
with a truthy `path` yields no version; otherwise its `version` field (which
may be absent); any other value yields none. -/
def extract_version (spec : Val) : Option Val :=
  match spec with
  | .str s => some (.str s)
  | .table fs =>
      if truthyOpt (getF fs "path") then none else getF fs "version"
  | .inlineTable fs =>
      if truthyOpt (getF fs "path") then none else getF fs "version"
  | _ => none

/-- The value rewrite performed by `mutate_member_dep` on one spec:
a string becomes `{ workspace = true }`; a table-like spec loses its
`version` field and gains `workspace = true`; anything else is unchanged. -/
def mutSpec : Val → Val
  | .str _ => .inlineTable [("workspace", .boolean true)]
  | .table fs => .table (setF (delF fs "version") "workspace" (.boolean true))
  | .inlineTable fs => .inlineTable (setF (delF fs "version") "workspace" (.boolean true))
  | v => v

/-- `mutate_member_dep(dep_table, dep, version)`: rewrite `dep_table[dep]`
in place (the `version` argument is unused by the original as well). -/
def mutate_member_dep (dep_table : Fields) (dep : String) (_version : Val) : Fields :=
  updAt dep_table dep mutSpec

/-- One collected occurrence: `(sec, p, spec)` in `needed[dep]`. -/
structure Occ : Type where
  sec : String
  p : String
  spec : Val

/-- The collection filter: a spec is collected unless it is table-like with
a truthy `workspace` field. -/
def collectibleSpec (s : Val) : Bool :=
  !(isTableLike s && truthyOpt (tblGet s "workspace"))

/-- Collect the occurrences of one section table of one member. -/
def collectTable (sec p : String) (fs : Fields) : List (String × Occ) :=
  (fs.filter (fun e => collectibleSpec e.2)).map (fun e => (e.1, ⟨sec, p, e.2⟩))

/-- Collect all occurrences of one member document, section by section
(only sections stored as a `Table` are scanned, as in the script). -/
def collectDoc (p : String) (doc : Doc) : List (String × Occ) :=
  SECTIONS.flatMap (fun sec =>
    match getF doc sec with
    | some (.table fs) => collectTable sec p fs
    | _ => [])

/-- Collect all occurrences of all member documents, in discovery order. -/
def collectAll (members : List (String × Doc)) : List (String × Occ) :=
  members.flatMap (fun m => collectDoc m.1 m.2)

/-- Append one occurrence to the `defaultdict(list)`: extend an existing
key in place, else append a new key at the end. -/
def addOcc : List (String × List Occ) → String → Occ → List (String × List Occ)
  | [], dep, o => [(dep, [o])]
  | (d, os) :: rest, dep, o =>
      if d = dep then (d, os ++ [o]) :: rest else (d, os) :: addOcc rest dep o

/-- Group the collected pairs into `needed : dep -> [(sec, p, spec), ...]`,
keys in first-appearance order. -/
def groupOccs (pairs : List (String × Occ)) : List (String × List Occ) :=
  pairs.foldl (fun acc e => addOcc acc e.1 e.2) []

/-- An occurrence that signals a skip inside the resolution loop:
table-like with a truthy `path`. -/
def isSkipSignal (s : Val) : Bool :=
  isTableLike s && truthyOpt (tblGet s "path")

/-- The resolution loop of `hoist`: first version wins, and the loop stops
(with `skip = true`) at the first path-carrying table-like occurrence. -/
def resolveLoop : List Occ → Option Val → Option Val × Bool
  | [], version => (version, false)
  | o :: rest, version =>
      match extract_version o.spec with
      | none =>
          if isSkipSignal o.spec then (version, true)
          else resolveLoop rest version
      | some v =>
          match version with
          | none => resolveLoop rest (some v)
          | some _ => resolveLoop rest version

/-- `ensure_workspace_deps`: make sure the root document has a `workspace`
table with a `dependencies` sub-table. -/
def ensure_workspace_deps (doc : Doc) : Doc :=
  let doc1 := if (getF doc "workspace").isSome then doc
              else setF doc "workspace" (.table [])
  updAt doc1 "workspace" (fun w => updTbl w (fun ws =>
    if (getF ws "dependencies").isSome then ws
    else setF ws "dependencies" (.table [])))

/-- The fields of the root `workspace.dependencies` table (empty when the
structure is absent or not table-like). -/
def wsDepsOf (doc : Doc) : Fields :=
  match getF doc "workspace" with
  | some (.table ws) =>
      (match getF ws "dependencies" with
       | some (.table ds) => ds
       | some (.inlineTable ds) => ds
       | _ => [])
  | some (.inlineTable ws) =>
      (match getF ws "dependencies" with
       | some (.table ds) => ds
       | some (.inlineTable ds) => ds
       | _ => [])
  | _ => []

/-- `ws_deps[dep] = version` through the live reference into the root
document. -/
def insertWsDep (doc : Doc) (dep : String) (v : Val) : Doc :=
  updAt doc "workspace" (fun w => updTbl w (fun ws =>
    updAt ws "dependencies" (fun d => updTbl d (fun ds => setF ds dep v))))

/-- The evolving state of a `hoist` run. -/
structure HState : Type where
  root : Doc
  members : List (String × Doc)
  added : Nat
  updated : Nat
  skipped : Nat

/-- Mutate one member occurrence:
`sect = docs[p].get(sec); if isinstance(sect, Table) and dep in sect:
mutate_member_dep(sect, dep, version); updated += 1`. -/
def mutateOcc (st : HState) (dep : String) (version : Val) (o : Occ) : HState :=
  match getF st.members o.p with
  | some doc =>
      (match getF doc o.sec with
       | some (.table fs) =>
           if (getF fs dep).isSome then
             { st with
                members := setF st.members o.p
                  (setF doc o.sec (.table (mutate_member_dep fs dep version))),
                updated := st.updated + 1 }
           else st
       | _ => st)
  | none => st

/-- Process one `needed` entry: resolve, count a skip, or insert into the
shared table (when absent) and mutate every occurrence. -/
def processDep (st : HState) (dep : String) (occ : List Occ) : HState :=
  match resolveLoop occ none with
  | (_, true) => { st with skipped := st.skipped + 1 }
  | (none, false) => { st with skipped := st.skipped + 1 }
  | (some v, false) =>
      let st1 :=
        if (getF (wsDepsOf st.root) dep).isNone then
          { st with root := insertWsDep st.root dep v, added := st.added + 1 }
        else st
      occ.foldl (fun s o => mutateOcc s dep v o) st1

/-- The in-memory part of `hoist`: collection, resolution and mutation over
a parsed root document and parsed member documents (discovery order). -/
def hoistCore (root : Doc) (members : List (String × Doc)) : HState :=
  let needed := groupOccs (collectAll members)
  needed.foldl (fun st e => processDep st e.1 e.2)
    ⟨ensure_workspace_deps root, members, 0, 0, 0⟩

/-- The member-write loop of `hoist`: iterate every occurrence of `needed`
in order, writing each occurrence path once, skipping the root path. -/
def seenFold (rootPath : String) (ps : List String) : List String :=
  ps.foldl (fun seen p =>
    if seen.contains p || p = rootPath then seen else seen ++ [p]) []

/-- The member manifests written (and backed up) by a non-dry `hoist` run,
in first-occurrence order. -/
def memberWriteList (rootPath : String) (needed : List (String × List Occ)) :
    List String :=
  seenFold rootPath ((needed.flatMap (fun e => e.2)).map (fun o => o.p))

/-- All files written by a non-dry `hoist` run: the root manifest when
entries were added, then the member-write list. -/
def hoistWriteList (rootPath : String) (added : Nat) (needed : List (String × List Occ)) :
    List String :=
  (if added ≠ 0 then [rootPath] else []) ++ memberWriteList rootPath needed

/-- Observable outcome of one `hoist` or `sort` run: final state plus the
paths backed up and written, in order. -/
structure RunOut : Type where
  state : HState
  backups : List String
  writes : List String

/-- A full `hoist` run on parsed documents: the core pipeline, then (unless
dry) the write phase; each written file is backed up just before writing. -/
def hoistRun (rootPath : String) (dry : Bool) (root : Doc)
    (members : List (String × Doc)) : RunOut :=
  let st := hoistCore root members
  if dry then ⟨st, [], []⟩
  else
    let wl := hoistWriteList rootPath st.added (groupOccs (collectAll members))
    ⟨st, wl, wl⟩

/-- Parse every discovered file up front, as the dict comprehension in
`hoist` does; the first malformed file aborts the whole run. -/
def parseAll : List (String × Option Doc) → Option (List (String × Doc))
  | [] => some []
  | (p, some d) :: rest => (parseAll rest).map (fun r => (p, d) :: r)
  | (_, none) :: _ => none

/-- A `hoist` run from raw files (root first): `none` models an aborted run
(missing root manifest, or a parse failure before any write). -/
def hoistFullRun (dry : Bool) (files : List (String × Option Doc)) :
    Option RunOut :=
  match files with
  | [] => none
  | _ :: _ =>
      match parseAll files with
      | some ((rootPath, rootDoc) :: members) =>
          some (hoistRun rootPath dry rootDoc members)
      | _ => none

/-- The files written by an optional run outcome (an aborted run wrote
nothing). -/
def writesOf : Option RunOut → List String
  | none => []
  | some r => r.writes

/-- The value conversion applied by `sort_deps_table` to each entry:
a nonempty `Table` becomes an `InlineTable` with the same fields
(`t.update(v)`); everything else is passed through (`t if t else v`). -/
def convVal : Val → Val
  | .table fs => if fs.isEmpty then .table fs else .inlineTable fs
  | v => v

/-- Lexicographic comparison of character lists by code point, the order
Python uses on `str`. -/
def charsLe : List Char → List Char → Bool
  | [], _ => true
  | _ :: _, [] => false
  | c :: cs, d :: ds => if c = d then charsLe cs ds else decide (c < d)

/-- Python string comparison `a <= b` (code-point lexicographic). -/
def strLe (a b : String) : Prop := charsLe a.data b.data = true

instance : DecidableRel strLe := fun a b => inferInstanceAs (Decidable (charsLe a.data b.data = true))

/-- Python `s.startswith(p)` (code-point prefix test). -/
def startsWithB (s pat : String) : Bool := pat.data.isPrefixOf s.data

/-- Key comparison used to model Python `sorted` on (name, value) pairs:
Python compares the name first and, in the tables the script meets, names
within one table are pairwise distinct, so the order is fully determined by
the names. Modelled by a stable sort by name, matching the stability of
Python `sorted`. -/
def keyLe (a b : String × Val) : Prop := strLe a.1 b.1

instance : DecidableRel keyLe := fun a b => inferInstanceAs (Decidable (strLe a.1 b.1))

theorem charsLe_total (a b : List Char) : charsLe a b = true ∨ charsLe b a = true := by
  induction a generalizing b with
  | nil => left; rfl
  | cons c cs ih =>
      cases b with
      | nil => right; rfl
      | cons d ds =>
          by_cases hcd : c = d
          · subst hcd
            rcases ih ds with h | h
            · left; simpa [charsLe] using h
            · right; simpa [charsLe] using h
          · rcases lt_trichotomy c d with h | h | h
            · left; simp [charsLe, hcd, h]
            · exact absurd h hcd
            · right
              simp [charsLe, ne_of_lt h, h]

theorem charsLe_trans {a b c : List Char} (h1 : charsLe a b = true)
    (h2 : charsLe b c = true) : charsLe a c = true := by
  induction a generalizing b c with
  | nil => rfl
  | cons x xs ih =>
      cases b with
      | nil => simp [charsLe] at h1
      | cons y ys =>
          cases c with
          | nil => simp [charsLe] at h2
          | cons z zs =>
              by_cases hxy : x = y <;> by_cases hyz : y = z
              · subst hxy; subst hyz
                simp only [charsLe, if_pos rfl] at h1 h2 ⊢
                exact ih h1 h2
              · subst hxy
                simp only [charsLe, if_pos rfl] at h1
                simpa [charsLe, hyz] using h2
              · subst hyz
                simpa [charsLe, hxy] using h1
              · simp only [charsLe, if_neg hxy, decide_eq_true_eq] at h1
                simp only [charsLe, if_neg hyz, decide_eq_true_eq] at h2
                have hxz : x < z := lt_trans h1 h2
                simp [charsLe, ne_of_lt hxz, hxz]

theorem charsLe_antisymm {a b : List Char} (h1 : charsLe a b = true)
    (h2 : charsLe b a = true) : a = b := by
  induction a generalizing b with
  | nil =>
      cases b with
      | nil => rfl
      | cons d ds => simp [charsLe] at h2
  | cons c cs ih =>
      cases b with
      | nil => simp [charsLe] at h1
      | cons d ds =>
          by_cases hcd : c = d
          · subst hcd
            simp only [charsLe, if_pos rfl] at h1 h2
            rw [ih h1 h2]
          · simp only [charsLe, if_neg hcd, decide_eq_true_eq] at h1
            simp only [charsLe, if_neg (fun h : d = c => hcd h.symm),
              decide_eq_true_eq] at h2
            exact absurd (lt_trans h1 h2) (lt_irrefl c)

instance : IsTotal (String × Val) keyLe :=
  ⟨fun a b => charsLe_total a.1.data b.1.data⟩

instance : IsTrans (String × Val) keyLe :=
  ⟨fun _ _ _ h1 h2 => charsLe_trans h1 h2⟩

instance : IsTotal String strLe :=
  ⟨fun a b => charsLe_total a.data b.data⟩

instance : IsTrans String strLe :=
  ⟨fun _ _ _ h1 h2 => charsLe_trans h1 h2⟩

theorem strLe_antisymm {a b : String} (h1 : strLe a b) (h2 : strLe b a) :
    a = b := by
  cases a; cases b
  exact congrArg String.mk (charsLe_antisymm h1 h2)

/-- `sort_deps_table`: the `kintsu`-prefixed entries sorted by name, then
the remaining entries sorted by name, each value converted by `convVal`. -/
def sort_deps_table (fs : Fields) : Fields :=
  let kintsu := (fs.filter (fun e => startsWithB e.1 "kintsu")).insertionSort keyLe
  let others := (fs.filter (fun e => !startsWithB e.1 "kintsu")).insertionSort keyLe
  (kintsu ++ others).map (fun e => (e.1, convVal e.2))

/-- Python `sorted` on a list of strings (a stable sort; on strings the
order is total, so stability is irrelevant). -/
def sortStrings (xs : List String) : List String :=
  xs.insertionSort strLe

/-- One step of the section loop of `sort`: replace a section stored as a
`Table` by its sorted form and raise the `modified` flag. -/
def sortSecStep (acc : Doc × Bool) (sec : String) : Doc × Bool :=
  match getF acc.1 sec with
  | some (.table fs) => (setF acc.1 sec (.table (sort_deps_table fs)), true)
  | _ => acc

/-- Sort one parsed document, returning the new document and the
`modified` flag (set whenever a sortable region exists, sorted or not). -/
def sortDoc (doc : Doc) : Doc × Bool :=
  let p1 := SECTIONS.foldl sortSecStep (doc, false)
  match getF p1.1 "workspace" with
  | some (.table ws) =>
      let q1 : Fields × Bool :=
        match getF ws "dependencies" with
        | some (.table ds) => (setF ws "dependencies" (.table (sort_deps_table ds)), true)
        | _ => (ws, p1.2)
      let q2 : Fields × Bool :=
        match getF q1.1 "members" with
        | some (.arr xs) => (setF q1.1 "members" (.arr (sortStrings xs)), true)
        | _ => q1
      (setF p1.1 "workspace" (.table q2.1), q2.2)
  | _ => p1

/-- A document region that makes `sort` set its `modified` flag: a
dependency section stored as a table, or a `workspace` table carrying a
`dependencies` table or a `members` array. -/
def hasSortableRegion (doc : Doc) : Bool :=
  (SECTIONS.any (fun sec =>
    match getF doc sec with
    | some (.table _) => true
    | _ => false)) ||
  (match getF doc "workspace" with
   | some (.table ws) =>
       (match getF ws "dependencies" with
        | some (.table _) => true
        | _ => false) ||
       (match getF ws "members" with
        | some (.arr _) => true
        | _ => false)
   | _ => false)

/-- Trace of a `sort` run: backups and writes in order, the reported count,
and whether a parse failure aborted the run. -/
structure SortTrace : Type where
  backups : List String
  writes : List String
  count : Nat
  failed : Bool

/-- The per-file loop of `sort`: back up the file, then parse it (a parse
failure aborts the rest of the run), then sort and (unless dry) write when
the modified flag is set. -/
def sortRunFrom (dry : Bool) (acc : SortTrace) :
    List (String × Option Doc) → SortTrace
  | [] => acc
  | (p, raw) :: rest =>
      let acc1 : SortTrace := { acc with backups := acc.backups ++ [p] }
      match raw with
      | none => { acc1 with failed := true }
      | some doc =>
          if (sortDoc doc).2 then
            sortRunFrom dry
              { acc1 with
                  count := acc1.count + 1,
                  writes := if dry then acc1.writes else acc1.writes ++ [p] } rest
          else sortRunFrom dry acc1 rest

/-- A full `sort` run over the discovered files. -/
def sortRun (dry : Bool) (files : List (String × Option Doc)) : SortTrace :=
  sortRunFrom dry ⟨[], [], 0, false⟩ files

/-! ### Association-list lemmas -/

theorem getF_setF_self {α : Type} (fs : List (String × α)) (k : String) (v : α) :
    getF (setF fs k v) k = some v := by
  induction fs with
  | nil => simp [getF, setF]
  | cons e rest ih =>
      by_cases h : e.1 = k
      · simp [setF, getF, h]
      · simp [setF, getF, h, ih]

theorem getF_setF_ne {α : Type} (fs : List (String × α)) (k k' : String) (v : α)
    (h : k' ≠ k) : getF (setF fs k v) k' = getF fs k' := by
  have hne : k ≠ k' := fun hh => h hh.symm
  induction fs with
  | nil => simp [getF, setF, hne]
  | cons e rest ih =>
      by_cases he : e.1 = k
      · subst he
        simp [setF, getF, hne]
      · by_cases he' : e.1 = k'
        · simp [setF, getF, he, he', h]
        · simp [setF, getF, he, he', ih]

theorem setF_getF_self {α : Type} (fs : List (String × α)) (k : String) (v : α)
    (h : getF fs k = some v) : setF fs k v = fs := by
  induction fs with
  | nil => simp [getF] at h
  | cons e rest ih =>
      by_cases he : e.1 = k
      · simp only [getF, if_pos he] at h
        cases e with
        | mk k1 v1 =>
            simp only [] at he
            subst he
            simp only [Option.some.injEq] at h
            simp [setF, h]
      · simp only [getF, if_neg he] at h
        simp [setF, he, ih h]

theorem setF_setF_same {α : Type} (fs : List (String × α)) (k : String) (a b : α) :
    setF (setF fs k a) k b = setF fs k b := by
  induction fs with
  | nil => simp [setF]
  | cons e rest ih =>
      by_cases he : e.1 = k
      · simp [setF, he]
      · simp [setF, he, ih]

/-- Updating a present key commutes with any other store. -/
theorem setF_comm_of_present {α : Type} (fs : List (String × α)) (k k' : String)
    (a b : α) (w : α) (hk : getF fs k = some w) (h : k' ≠ k) :
    setF (setF fs k' b) k a = setF (setF fs k a) k' b := by
  have hne : k ≠ k' := fun hh => h hh.symm
  induction fs with
  | nil => simp [getF] at hk
  | cons e rest ih =>
      by_cases he : e.1 = k
      · subst he
        simp [setF, hne, h]
      · by_cases he' : e.1 = k'
        · subst he'
          simp only [getF, if_neg he] at hk
          simp [setF, he, hne]
        · simp only [getF, if_neg he] at hk
          simp [setF, he, he', ih hk]

theorem getF_delF_ne {α : Type} (fs : List (String × α)) (k k' : String)
    (h : k' ≠ k) : getF (delF fs k) k' = getF fs k' := by
  induction fs with
  | nil => simp [delF]
  | cons e rest ih =>
      have hne : k ≠ k' := fun hh => h hh.symm
      by_cases he : e.1 = k
      · simp [delF, getF, he, hne]
      · simp [delF, getF, he, ih]

theorem mem_keys_of_getF {α : Type} (fs : List (String × α)) (k : String) (v : α)
    (h : getF fs k = some v) : k ∈ fs.map Prod.fst := by
  induction fs with
  | nil => simp [getF] at h
  | cons e rest ih =>
      by_cases he : e.1 = k
      · simp [he.symm]
      · simp only [getF, if_neg he] at h
        simp [ih h]

theorem getF_eq_none_of_not_mem_keys {α : Type} (fs : List (String × α)) (k : String)
    (h : k ∉ fs.map Prod.fst) : getF fs k = none := by
  cases hg : getF fs k with
  | none => rfl
  | some v => exact absurd (mem_keys_of_getF fs k v hg) h

theorem getF_delF_self {α : Type} (fs : List (String × α)) (k : String)
    (h : (fs.map Prod.fst).Nodup) : getF (delF fs k) k = none := by
  induction fs with
  | nil => simp [delF, getF]
  | cons e rest ih =>
      simp only [List.map_cons, List.nodup_cons] at h
      by_cases he : e.1 = k
      · subst he
        cases hr : getF rest e.1 with
        | none => simp [delF, hr]
        | some v => exact absurd (mem_keys_of_getF rest e.1 v hr) h.1
      · simp [delF, getF, he, ih h.2]

theorem getF_of_mem_nodup {α : Type} (fs : List (String × α)) (k : String) (v : α)
    (hnd : (fs.map Prod.fst).Nodup) (h : (k, v) ∈ fs) : getF fs k = some v := by
  induction fs with
  | nil => simp at h
  | cons e rest ih =>
      simp only [List.map_cons, List.nodup_cons] at hnd
      rcases List.mem_cons.1 h with h1 | h1
      · rw [← h1]
        simp [getF]
      · by_cases he : e.1 = k
        · exfalso
          exact hnd.1 (he ▸ List.mem_map_of_mem Prod.fst h1)
        · simp [getF, he, ih hnd.2 h1]

theorem keys_setF_of_getF {α : Type} (fs : List (String × α)) (k : String) (v w : α)
    (h : getF fs k = some w) : (setF fs k v).map Prod.fst = fs.map Prod.fst := by
  induction fs with
  | nil => simp [getF] at h
  | cons e rest ih =>
      by_cases he : e.1 = k
      · simp [setF, he]
      · simp only [getF, if_neg he] at h
        simp [setF, he, ih h]

/-- A fold-invariant helper. -/
theorem foldl_inv {α β : Type} {P : β → Prop} {f : β → α → β} {l : List α} {b : β}
    (hb : P b) (hf : ∀ b a, a ∈ l → P b → P (f b a)) : P (l.foldl f b) := by
  induction l generalizing b with
  | nil => exact hb
  | cons a rest ih =>
      exact ih (hf b a (List.mem_cons_self a rest) hb)
        (fun b' a' ha' h' => hf b' a' (List.mem_cons_of_mem a ha') h')

/-! ### Resolution-loop characterization -/

theorem isSkipSignal_eq_false_of_extract {s : Val} {v : Val}
    (h : extract_version s = some v) : isSkipSignal s = false := by
  cases s with
  | str _ => rfl
  | boolean _ => simp [extract_version] at h
  | arr _ => simp [extract_version] at h
  | table fs =>
      by_cases hp : truthyOpt (getF fs "path") = true
      · simp [extract_version, hp] at h
      · simp only [Bool.not_eq_true] at hp
        simp [isSkipSignal, tblGet, isTableLike, hp]
  | inlineTable fs =>
      by_cases hp : truthyOpt (getF fs "path") = true
      · simp [extract_version, hp] at h
      · simp only [Bool.not_eq_true] at hp
        simp [isSkipSignal, tblGet, isTableLike, hp]

theorem resolveLoop_some_acc (occs : List Occ) (v : Val) :
    resolveLoop occs (some v) =
      (some v, occs.any (fun o => isSkipSignal o.spec)) := by
  induction occs with
  | nil => simp [resolveLoop]
  | cons o rest ih =>
      cases he : extract_version o.spec with
      | none =>
          by_cases hs : isSkipSignal o.spec = true
          · simp [resolveLoop, he, hs]
          · simp only [Bool.not_eq_true] at hs
            simp [resolveLoop, he, hs, ih]
      | some w =>
          simp [resolveLoop, he, ih, isSkipSignal_eq_false_of_extract he]

/-! ### Claim theorems -/

/-- Claim C1, counterexample: a dependency whose occurrence list contains a
version-carrying occurrence (member `m2` declares `foo = "1.0"`) is
nevertheless skipped, not hoisted, because another occurrence is a path-only
table: `hoist` leaves every member untouched, adds nothing to the shared
table and counts the dependency as skipped. -/
theorem claim1_counterexample :
    (hoistCore [] [("m1", [("dependencies", Val.table
        [("foo", Val.inlineTable [("path", Val.str "../foo")])])]),
      ("m2", [("dependencies", Val.table [("foo", Val.str "1.0")])])]).added = 0
    ∧ (hoistCore [] [("m1", [("dependencies", Val.table
        [("foo", Val.inlineTable [("path", Val.str "../foo")])])]),
      ("m2", [("dependencies", Val.table [("foo", Val.str "1.0")])])]).updated = 0
    ∧ (hoistCore [] [("m1", [("dependencies", Val.table
        [("foo", Val.inlineTable [("path", Val.str "../foo")])])]),
      ("m2", [("dependencies", Val.table [("foo", Val.str "1.0")])])]).skipped = 1
    ∧ (hoistCore [] [("m1", [("dependencies", Val.table
        [("foo", Val.inlineTable [("path", Val.str "../foo")])])]),
      ("m2", [("dependencies", Val.table [("foo", Val.str "1.0")])])]).members =
      [("m1", [("dependencies", Val.table
        [("foo", Val.inlineTable [("path", Val.str "../foo")])])]),
       ("m2", [("dependencies", Val.table [("foo", Val.str "1.0")])])]
    ∧ getF (wsDepsOf (hoistCore [] [("m1", [("dependencies", Val.table
        [("foo", Val.inlineTable [("path", Val.str "../foo")])])]),
      ("m2", [("dependencies", Val.table [("foo", Val.str "1.0")])])]).root) "foo"
      = none :=
  ⟨rfl, rfl, rfl, rfl, rfl⟩

/-- Claim C1, amended: the resolution loop stops at the first path-carrying
table-like occurrence, so a dependency is skipped whenever any occurrence
signals a skip, or when no occurrence lying strictly before the first skip
signal carries a version; the resolved version, when the dependency is
hoisted, is the first version among the occurrences before the first skip
signal. -/
theorem claim1_amended (occs : List Occ) :
    resolveLoop occs none =
      ((occs.takeWhile (fun o => !isSkipSignal o.spec)).findSome?
          (fun o => extract_version o.spec),
        occs.any (fun o => isSkipSignal o.spec)) := by
  induction occs with
  | nil => simp [resolveLoop]
  | cons o rest ih =>
      cases he : extract_version o.spec with
      | none =>
          by_cases hs : isSkipSignal o.spec = true
          · simp [resolveLoop, he, hs, List.takeWhile]
          · simp only [Bool.not_eq_true] at hs
            simp [resolveLoop, he, hs, List.takeWhile, List.findSome?, ih]
      | some w =>
          have hns := isSkipSignal_eq_false_of_extract he
          simp [resolveLoop, he, hns, List.takeWhile, List.findSome?,
            resolveLoop_some_acc]

/-- Claim C2: on a root manifest without a shared table and a single member
declaring `foo = "1.2"` and `bar = { path = "../bar" }`, `hoist` adds
`foo = "1.2"` to the shared table, rewrites the member's `foo` entry to
`{ workspace = true }`, leaves the member's `bar` entry unchanged, and
reports one skipped and one added dependency. -/
theorem claim2_scenario :
    getF (wsDepsOf (hoistCore [] [("m", [("dependencies", Val.table
        [("foo", Val.str "1.2"),
         ("bar", Val.inlineTable [("path", Val.str "../bar")])])])]).root) "foo"
      = some (Val.str "1.2")
    ∧ (hoistCore [] [("m", [("dependencies", Val.table
        [("foo", Val.str "1.2"),
         ("bar", Val.inlineTable [("path", Val.str "../bar")])])])]).members =
      [("m", [("dependencies", Val.table
        [("foo", Val.inlineTable [("workspace", Val.boolean true)]),
         ("bar", Val.inlineTable [("path", Val.str "../bar")])])])]
    ∧ (hoistCore [] [("m", [("dependencies", Val.table
        [("foo", Val.str "1.2"),
         ("bar", Val.inlineTable [("path", Val.str "../bar")])])])]).skipped = 1
    ∧ (hoistCore [] [("m", [("dependencies", Val.table
        [("foo", Val.str "1.2"),
         ("bar", Val.inlineTable [("path", Val.str "../bar")])])])]).added = 1 :=
  ⟨rfl, rfl, rfl, rfl⟩

/-- Claim C5: on a resolved occurrence, the mutation rewrites a bare string
spec to exactly `{ workspace = true }`, and rewrites a table-like spec by
removing its `version` field and setting `workspace = true` while every
other field keeps its previous value. -/
theorem claim5_mutation_frame (dep_table : Fields) (dep : String) (version : Val)
    (fs : Fields) (s : String) (hnd : (fs.map Prod.fst).Nodup) :
    (getF dep_table dep = some (.str s) →
        mutate_member_dep dep_table dep version =
          setF dep_table dep (.inlineTable [("workspace", .boolean true)]))
    ∧ (getF dep_table dep = some (.table fs) →
        ∃ fs', mutate_member_dep dep_table dep version = setF dep_table dep (.table fs')
          ∧ getF fs' "version" = none
          ∧ getF fs' "workspace" = some (.boolean true)
          ∧ ∀ k, k ≠ "version" → k ≠ "workspace" → getF fs' k = getF fs k)
    ∧ (getF dep_table dep = some (.inlineTable fs) →
        ∃ fs', mutate_member_dep dep_table dep version =
            setF dep_table dep (.inlineTable fs')
          ∧ getF fs' "version" = none
          ∧ getF fs' "workspace" = some (.boolean true)
          ∧ ∀ k, k ≠ "version" → k ≠ "workspace" → getF fs' k = getF fs k) := by
  refine ⟨fun h => ?_, fun h => ?_, fun h => ?_⟩
  · simp [mutate_member_dep, updAt, h, mutSpec]
  · refine ⟨setF (delF fs "version") "workspace" (.boolean true), ?_, ?_, ?_, ?_⟩
    · simp [mutate_member_dep, updAt, h, mutSpec]
    · rw [getF_setF_ne _ _ _ _ (by decide)]
      exact getF_delF_self fs "version" hnd
    · exact getF_setF_self _ _ _
    · intro k hkv hkw
      rw [getF_setF_ne _ _ _ _ hkw, getF_delF_ne _ _ _ hkv]
  · refine ⟨setF (delF fs "version") "workspace" (.boolean true), ?_, ?_, ?_, ?_⟩
    · simp [mutate_member_dep, updAt, h, mutSpec]
    · rw [getF_setF_ne _ _ _ _ (by decide)]
      exact getF_delF_self fs "version" hnd
    · exact getF_setF_self _ _ _
    · intro k hkv hkw
      rw [getF_setF_ne _ _ _ _ hkw, getF_delF_ne _ _ _ hkv]

/-- Claim C5, witness: the theorem applied to a concrete detailed spec with
a version field and one passthrough field. -/
theorem claim5_mutation_frame_witness :
    ∃ fs', mutate_member_dep
        [("d", Val.table [("version", Val.str "1"), ("features", Val.arr ["x"])])]
        "d" (Val.str "1") =
        setF [("d", Val.table [("version", Val.str "1"), ("features", Val.arr ["x"])])]
          "d" (.table fs')
      ∧ getF fs' "version" = none
      ∧ getF fs' "workspace" = some (.boolean true)
      ∧ ∀ k, k ≠ "version" → k ≠ "workspace" →
          getF fs' k = getF [("version", Val.str "1"), ("features", Val.arr ["x"])] k :=
  (claim5_mutation_frame
      [("d", Val.table [("version", Val.str "1"), ("features", Val.arr ["x"])])]
      "d" (Val.str "1")
      [("version", Val.str "1"), ("features", Val.arr ["x"])] "s"
      (by decide)).2.1 rfl

/-! ### Shared-table lemmas -/

theorem wsDepsOf_ensure (doc : Doc) :
    wsDepsOf (ensure_workspace_deps doc) = wsDepsOf doc := by
  cases hget : getF doc "workspace" with
  | none =>
      simp [ensure_workspace_deps, hget, updAt, updTbl, wsDepsOf,
        getF_setF_self, setF_setF_same, getF, setF]
  | some w =>
      cases w with
      | table ws =>
          cases hd : getF ws "dependencies" with
          | none =>
              simp [ensure_workspace_deps, hget, hd, updAt, updTbl, wsDepsOf,
                getF_setF_self]
          | some dv =>
              simp only [ensure_workspace_deps, hget, Option.isSome_some,
                if_true, updAt, updTbl, hd]
              rw [setF_getF_self _ _ _ hget]
      | inlineTable ws =>
          cases hd : getF ws "dependencies" with
          | none =>
              simp [ensure_workspace_deps, hget, hd, updAt, updTbl, wsDepsOf,
                getF_setF_self]
          | some dv =>
              simp only [ensure_workspace_deps, hget, Option.isSome_some,
                if_true, updAt, updTbl, hd]
              rw [setF_getF_self _ _ _ hget]
      | str s =>
          simp only [ensure_workspace_deps, hget, Option.isSome_some, if_true,
            updAt, updTbl]
          rw [setF_getF_self _ _ _ hget]
      | boolean b =>
          simp only [ensure_workspace_deps, hget, Option.isSome_some, if_true,
            updAt, updTbl]
          rw [setF_getF_self _ _ _ hget]
      | arr xs =>
          simp only [ensure_workspace_deps, hget, Option.isSome_some, if_true,
            updAt, updTbl]
          rw [setF_getF_self _ _ _ hget]

theorem wsDepsOf_insertWsDep (doc : Doc) (d : String) (v : Val) :
    wsDepsOf (insertWsDep doc d v) = setF (wsDepsOf doc) d v
    ∨ wsDepsOf (insertWsDep doc d v) = wsDepsOf doc := by
  cases hget : getF doc "workspace" with
  | none => right; simp [insertWsDep, updAt, hget]
  | some w =>
      cases w with
      | table ws =>
          cases hd : getF ws "dependencies" with
          | none =>
              right
              simp [insertWsDep, updAt, hget, hd, updTbl, wsDepsOf,
                getF_setF_self]
          | some dv =>
              cases dv with
              | table ds =>
                  left
                  simp [insertWsDep, updAt, hget, hd, updTbl, wsDepsOf,
                    getF_setF_self]
              | inlineTable ds =>
                  left
                  simp [insertWsDep, updAt, hget, hd, updTbl, wsDepsOf,
                    getF_setF_self]
              | str s =>
                  right
                  simp [insertWsDep, updAt, hget, hd, updTbl, wsDepsOf,
                    getF_setF_self]
              | boolean b =>
                  right
                  simp [insertWsDep, updAt, hget, hd, updTbl, wsDepsOf,
                    getF_setF_self]
              | arr xs =>
                  right
                  simp [insertWsDep, updAt, hget, hd, updTbl, wsDepsOf,
                    getF_setF_self]
      | inlineTable ws =>
          cases hd : getF ws "dependencies" with
          | none =>
              right
              simp [insertWsDep, updAt, hget, hd, updTbl, wsDepsOf,
                getF_setF_self]
          | some dv =>
              cases dv with
              | table ds =>
                  left
                  simp [insertWsDep, updAt, hget, hd, updTbl, wsDepsOf,
                    getF_setF_self]
              | inlineTable ds =>
                  left
                  simp [insertWsDep, updAt, hget, hd, updTbl, wsDepsOf,
                    getF_setF_self]
              | str s =>
                  right
                  simp [insertWsDep, updAt, hget, hd, updTbl, wsDepsOf,
                    getF_setF_self]
              | boolean b =>
                  right
                  simp [insertWsDep, updAt, hget, hd, updTbl, wsDepsOf,
                    getF_setF_self]
              | arr xs =>
                  right
                  simp [insertWsDep, updAt, hget, hd, updTbl, wsDepsOf,
                    getF_setF_self]
      | str s =>
          right
          simp [insertWsDep, updAt, hget, updTbl, wsDepsOf, getF_setF_self]
      | boolean b =>
          right
          simp [insertWsDep, updAt, hget, updTbl, wsDepsOf, getF_setF_self]
      | arr xs =>
          right
          simp [insertWsDep, updAt, hget, updTbl, wsDepsOf, getF_setF_self]

theorem mutateOcc_root (st : HState) (dep : String) (v : Val) (o : Occ) :
    (mutateOcc st dep v o).root = st.root := by
  cases hm : getF st.members o.p with
  | none => simp [mutateOcc, hm]
  | some doc =>
      cases hs : getF doc o.sec with
      | none => simp [mutateOcc, hm, hs]
      | some w =>
          cases w with
          | table fs =>
              by_cases hd : (getF fs dep).isSome = true
              · simp [mutateOcc, hm, hs, hd]
              · simp [mutateOcc, hm, hs, hd]
          | inlineTable fs => simp [mutateOcc, hm, hs]
          | str s => simp [mutateOcc, hm, hs]
          | boolean b => simp [mutateOcc, hm, hs]
          | arr xs => simp [mutateOcc, hm, hs]

theorem mutateOccFold_root (st : HState) (dep : String) (v : Val) (os : List Occ) :
    (os.foldl (fun s o => mutateOcc s dep v o) st).root = st.root := by
  induction os generalizing st with
  | nil => rfl
  | cons o rest ih => rw [List.foldl_cons, ih, mutateOcc_root]

theorem processDep_root_preserves (st : HState) (dep : String) (os : List Occ)
    (k : String) (v : Val) (h : getF (wsDepsOf st.root) k = some v) :
    getF (wsDepsOf (processDep st dep os).root) k = some v := by
  unfold processDep
  rcases hres : resolveLoop os none with ⟨ver, skip⟩
  cases skip with
  | true => simpa using h
  | false =>
      cases ver with
      | none => simpa using h
      | some w =>
          simp only []
          rw [mutateOccFold_root]
          by_cases hmem : (getF (wsDepsOf st.root) dep).isNone = true
          · simp only [hmem, if_true]
            have hkd : k ≠ dep := by
              intro hk
              rw [hk] at h
              rw [h] at hmem
              simp at hmem
            rcases wsDepsOf_insertWsDep st.root dep w with hc | hc
            · simp only [hc]
              rw [getF_setF_ne _ _ _ _ hkd]
              exact h
            · simp only [hc]
              exact h
          · simp only [hmem, if_false]
            exact h

/-- Claim C3: the shared table is append-only: any dependency name already
mapped in the root workspace dependencies before a `hoist` run is mapped to
the identical value afterwards (in particular no existing key is removed or
changed). -/
theorem claim3_append_only (root : Doc) (members : List (String × Doc))
    (k : String) (v : Val) (h : getF (wsDepsOf root) k = some v) :
    getF (wsDepsOf (hoistCore root members).root) k = some v := by
  unfold hoistCore
  refine foldl_inv (P := fun st : HState => getF (wsDepsOf st.root) k = some v)
    ?_ ?_
  · show getF (wsDepsOf (ensure_workspace_deps root)) k = some v
    rw [wsDepsOf_ensure]
    exact h
  · intro st e _ hst
    exact processDep_root_preserves st e.1 e.2 k v hst

/-- Claim C3, witness: a root manifest already holding `serde = "1"` in its
shared table keeps that exact entry across a `hoist` run that also adds a
new dependency. -/
theorem claim3_append_only_witness :
    getF (wsDepsOf (hoistCore
        [("workspace", Val.table [("dependencies", Val.table
          [("serde", Val.str "1")])])]
        [("m", [("dependencies", Val.table [("foo", Val.str "2")])])]).root)
      "serde" = some (Val.str "1") :=
  claim3_append_only
    [("workspace", Val.table [("dependencies", Val.table [("serde", Val.str "1")])])]
    [("m", [("dependencies", Val.table [("foo", Val.str "2")])])]
    "serde" (Val.str "1") rfl

/-! ### Sort-run lemmas -/

theorem listAny_congr {α : Type} {f g : α → Bool} {l : List α}
    (h : ∀ x ∈ l, f x = g x) : l.any f = l.any g := by
  induction l with
  | nil => rfl
  | cons x rest ih =>
      simp only [List.any_cons]
      rw [h x (List.mem_cons_self x rest),
        ih (fun y hy => h y (List.mem_cons_of_mem x hy))]

/-- Whether a key holds a `Table` value. -/
def isTableAt (doc : Doc) (k : String) : Bool :=
  match getF doc k with
  | some (.table _) => true
  | _ => false

theorem sortSecStep_getF_ne (acc : Doc × Bool) (sec k : String) (h : k ≠ sec) :
    getF (sortSecStep acc sec).1 k = getF acc.1 k := by
  unfold sortSecStep
  cases hs : getF acc.1 sec with
  | none => rfl
  | some w =>
      cases w with
      | table fs => simp [getF_setF_ne _ _ _ _ h]
      | inlineTable fs => rfl
      | str s => rfl
      | boolean b => rfl
      | arr xs => rfl

theorem sortSecFold_getF_not_mem (secs : List String) (doc : Doc) (b : Bool)
    (k : String) (hk : k ∉ secs) :
    getF (secs.foldl sortSecStep (doc, b)).1 k = getF doc k := by
  induction secs generalizing doc b with
  | nil => rfl
  | cons s rest ih =>
      have hks : k ≠ s := fun h => hk (h ▸ List.mem_cons_self s rest)
      have hkr : k ∉ rest := fun h => hk (List.mem_cons_of_mem s h)
      rw [List.foldl_cons]
      exact (ih (sortSecStep (doc, b) s).1 (sortSecStep (doc, b) s).2 hkr).trans
        (sortSecStep_getF_ne _ _ _ hks)

theorem sortSecFold_snd (secs : List String) (doc : Doc) (b : Bool)
    (hnd : secs.Nodup) :
    (secs.foldl sortSecStep (doc, b)).2 =
      (b || secs.any (fun sec => isTableAt doc sec)) := by
  induction secs generalizing doc b with
  | nil => simp
  | cons s rest ih =>
      simp only [List.nodup_cons] at hnd
      rw [List.foldl_cons, List.any_cons]
      have hcongr : ∀ doc' : Doc, (∀ x ∈ rest, getF doc' x = getF doc x) →
          rest.any (fun sec => isTableAt doc' sec) =
            rest.any (fun sec => isTableAt doc sec) := by
        intro doc' hsame
        refine listAny_congr ?_
        intro x hx
        unfold isTableAt
        rw [hsame x hx]
      cases hs : getF doc s with
      | none =>
          have hstep : sortSecStep (doc, b) s = (doc, b) := by
            unfold sortSecStep
            rw [hs]
          rw [hstep, ih doc b hnd.2]
          simp [isTableAt, hs]
      | some w =>
          cases w with
          | table fs =>
              have hstep : sortSecStep (doc, b) s =
                  (setF doc s (.table (sort_deps_table fs)), true) := by
                unfold sortSecStep
                rw [hs]
              rw [hstep, ih _ _ hnd.2,
                hcongr _ (fun x hx => getF_setF_ne _ _ _ _
                  (fun he : x = s => absurd (he ▸ hx) hnd.1))]
              simp [isTableAt, hs]
          | inlineTable fs =>
              have hstep : sortSecStep (doc, b) s = (doc, b) := by
                unfold sortSecStep
                rw [hs]
              rw [hstep, ih doc b hnd.2]
              simp [isTableAt, hs]
          | str s' =>
              have hstep : sortSecStep (doc, b) s = (doc, b) := by
                unfold sortSecStep
                rw [hs]
              rw [hstep, ih doc b hnd.2]
              simp [isTableAt, hs]
          | boolean b' =>
              have hstep : sortSecStep (doc, b) s = (doc, b) := by
                unfold sortSecStep
                rw [hs]
              rw [hstep, ih doc b hnd.2]
              simp [isTableAt, hs]
          | arr xs =>
              have hstep : sortSecStep (doc, b) s = (doc, b) := by
                unfold sortSecStep
                rw [hs]
              rw [hstep, ih doc b hnd.2]
              simp [isTableAt, hs]

/-- The `modified` flag of `sortDoc` detects exactly the sortable regions,
not whether sorting changes anything. -/
theorem sortDoc_flag (doc : Doc) : (sortDoc doc).2 = hasSortableRegion doc := by
  simp only [sortDoc, hasSortableRegion]
  have hws : getF (SECTIONS.foldl sortSecStep (doc, false)).1 "workspace" =
      getF doc "workspace" :=
    sortSecFold_getF_not_mem SECTIONS doc false "workspace" (by decide)
  have hsnd : (SECTIONS.foldl sortSecStep (doc, false)).2 =
      SECTIONS.any (fun sec => isTableAt doc sec) := by
    rw [sortSecFold_snd SECTIONS doc false (by decide)]
    simp
  rw [hws]
  cases hw : getF doc "workspace" with
  | none => simpa [isTableAt] using hsnd
  | some w =>
      cases w with
      | table ws =>
          cases hd : getF ws "dependencies" with
          | none =>
              cases hm : getF ws "members" with
              | none => simp [hd, hm, hsnd, isTableAt]
              | some mv =>
                  cases mv with
                  | arr xs => simp [hd, hm]
                  | str s => simp [hd, hm, hsnd, isTableAt]
                  | boolean b => simp [hd, hm, hsnd, isTableAt]
                  | table fs2 => simp [hd, hm, hsnd, isTableAt]
                  | inlineTable fs2 => simp [hd, hm, hsnd, isTableAt]
          | some dv =>
              cases dv with
              | table ds =>
                  have hm' : getF (setF ws "dependencies"
                      (.table (sort_deps_table ds))) "members" =
                      getF ws "members" := getF_setF_ne _ _ _ _ (by decide)
                  cases hm : getF ws "members" with
                  | none => simp [hd, hm, hm']
                  | some mv =>
                      cases mv with
                      | arr xs => simp [hd, hm, hm']
                      | str s => simp [hd, hm, hm']
                      | boolean b => simp [hd, hm, hm']
                      | table fs2 => simp [hd, hm, hm']
                      | inlineTable fs2 => simp [hd, hm, hm']
              | inlineTable ds =>
                  cases hm : getF ws "members" with
                  | none => simp [hd, hm, hsnd, isTableAt]
                  | some mv =>
                      cases mv with
                      | arr xs => simp [hd, hm]
                      | str s => simp [hd, hm, hsnd, isTableAt]
                      | boolean b => simp [hd, hm, hsnd, isTableAt]
                      | table fs2 => simp [hd, hm, hsnd, isTableAt]
                      | inlineTable fs2 => simp [hd, hm, hsnd, isTableAt]
              | str s =>
                  cases hm : getF ws "members" with
                  | none => simp [hd, hm, hsnd, isTableAt]
                  | some mv =>
                      cases mv with
                      | arr xs => simp [hd, hm]
                      | str s2 => simp [hd, hm, hsnd, isTableAt]
                      | boolean b => simp [hd, hm, hsnd, isTableAt]
                      | table fs2 => simp [hd, hm, hsnd, isTableAt]
                      | inlineTable fs2 => simp [hd, hm, hsnd, isTableAt]
              | boolean b =>
                  cases hm : getF ws "members" with
                  | none => simp [hd, hm, hsnd, isTableAt]
                  | some mv =>
                      cases mv with
                      | arr xs => simp [hd, hm]
                      | str s2 => simp [hd, hm, hsnd, isTableAt]
                      | boolean b2 => simp [hd, hm, hsnd, isTableAt]
                      | table fs2 => simp [hd, hm, hsnd, isTableAt]
                      | inlineTable fs2 => simp [hd, hm, hsnd, isTableAt]
              | arr xs =>
                  cases hm : getF ws "members" with
                  | none => simp [hd, hm, hsnd, isTableAt]
                  | some mv =>
                      cases mv with
                      | arr xs2 => simp [hd, hm]
                      | str s2 => simp [hd, hm, hsnd, isTableAt]
                      | boolean b2 => simp [hd, hm, hsnd, isTableAt]
                      | table fs2 => simp [hd, hm, hsnd, isTableAt]
                      | inlineTable fs2 => simp [hd, hm, hsnd, isTableAt]
      | inlineTable ws => simpa [isTableAt] using hsnd
      | str s => simpa [isTableAt] using hsnd
      | boolean b => simpa [isTableAt] using hsnd
      | arr xs => simpa [isTableAt] using hsnd

/-- Whether the per-file `sort` loop would flag a file as modified. -/
def wouldWrite (f : String × Option Doc) : Bool :=
  match f.2 with
  | some d => (sortDoc d).2
  | none => false

theorem sortRunFrom_backups (dry : Bool) (acc : SortTrace)
    (files : List (String × Option Doc)) (h : ∀ f ∈ files, (f.2).isSome) :
    (sortRunFrom dry acc files).backups = acc.backups ++ files.map Prod.fst := by
  induction files generalizing acc with
  | nil => simp [sortRunFrom]
  | cons f rest ih =>
      rcases f with ⟨p, raw⟩
      cases raw with
      | none =>
          have := h (p, none) (List.mem_cons_self _ _)
          simp at this
      | some doc =>
          have hrest : ∀ f ∈ rest, (f.2).isSome :=
            fun f hf => h f (List.mem_cons_of_mem _ hf)
          by_cases hm : (sortDoc doc).2 = true
          · simp only [sortRunFrom, hm, if_true]
            rw [ih _ hrest]
            simp
          · simp only [Bool.not_eq_true] at hm
            simp only [sortRunFrom, hm, Bool.false_eq_true, if_false]
            rw [ih _ hrest]
            simp

theorem sortRunFrom_writes (acc : SortTrace)
    (files : List (String × Option Doc)) :
    (sortRunFrom false acc files).writes =
      acc.writes ++
        ((files.takeWhile (fun f => (f.2).isSome)).filter wouldWrite).map Prod.fst := by
  induction files generalizing acc with
  | nil => simp [sortRunFrom]
  | cons f rest ih =>
      rcases f with ⟨p, raw⟩
      cases raw with
      | none => simp [sortRunFrom, List.takeWhile]
      | some doc =>
          by_cases hm : (sortDoc doc).2 = true
          · simp only [sortRunFrom, hm, if_true, Bool.false_eq_true]
            rw [ih]
            simp [List.takeWhile, wouldWrite, hm]
          · simp only [Bool.not_eq_true] at hm
            simp only [sortRunFrom, hm, Bool.false_eq_true, if_false]
            rw [ih]
            simp [List.takeWhile, wouldWrite, hm]

theorem sortRunFrom_count (dry : Bool) (acc : SortTrace)
    (files : List (String × Option Doc)) (h : ∀ f ∈ files, (f.2).isSome) :
    (sortRunFrom dry acc files).count = acc.count + (files.filter wouldWrite).length := by
  induction files generalizing acc with
  | nil => simp [sortRunFrom]
  | cons f rest ih =>
      rcases f with ⟨p, raw⟩
      cases raw with
      | none =>
          have := h (p, none) (List.mem_cons_self _ _)
          simp at this
      | some doc =>
          have hrest : ∀ f ∈ rest, (f.2).isSome :=
            fun f hf => h f (List.mem_cons_of_mem _ hf)
          by_cases hm : (sortDoc doc).2 = true
          · simp only [sortRunFrom, hm, if_true]
            rw [ih _ hrest]
            simp [wouldWrite, hm]
            omega
          · simp only [Bool.not_eq_true] at hm
            simp only [sortRunFrom, hm, Bool.false_eq_true, if_false]
            rw [ih _ hrest]
            simp [wouldWrite, hm]

theorem parseAll_eq_none (files : List (String × Option Doc))
    (h : ∃ f ∈ files, f.2 = none) : parseAll files = none := by
  induction files with
  | nil => simp at h
  | cons f rest ih =>
      rcases f with ⟨p, raw⟩
      cases raw with
      | none => simp [parseAll]
      | some doc =>
          rcases h with ⟨g, hg, hgnone⟩
          rcases List.mem_cons.1 hg with h1 | h1
          · rw [h1] at hgnone
            simp at hgnone
          · simp only [parseAll]
            rw [ih ⟨g, h1, hgnone⟩]
            rfl

/-- Claim C7, counterexample: a manifest whose single dependency section is
already sorted is still counted by a dry-run `sort` (its persisted content
would not differ, yet the reported count is 1). -/
theorem claim7_counterexample :
    (sortRun true [("a", some [("dependencies", Val.table
        [("alpha", Val.str "1")])])]).count = 1
    ∧ (sortDoc [("dependencies", Val.table [("alpha", Val.str "1")])]).1 =
        [("dependencies", Val.table [("alpha", Val.str "1")])] :=
  ⟨rfl, rfl⟩

/-- Claim C7, amended: a dry-run `sort` reports the number of discovered
manifests that contain at least one sortable region (a dependency section
stored as a table, or a workspace table with a dependencies table or a
members array), whether or not sorting would change their content. -/
theorem claim7_amended (files : List (String × Option Doc))
    (h : ∀ f ∈ files, (f.2).isSome) :
    (sortRun true files).count =
      (files.filter (fun f =>
        match f.2 with
        | some d => hasSortableRegion d
        | none => false)).length := by
  unfold sortRun
  rw [sortRunFrom_count true _ files h]
  have : files.filter wouldWrite = files.filter (fun f =>
      match f.2 with
      | some d => hasSortableRegion d
      | none => false) := by
    apply List.filter_congr
    intro f _
    unfold wouldWrite
    cases f.2 with
    | none => rfl
    | some d => exact sortDoc_flag d
  rw [this]
  simp

/-- Claim C7, witness: the amended count theorem applied to one unsorted
and one section-free manifest. -/
theorem claim7_amended_witness :
    (sortRun true [("a", some [("dependencies", Val.table
        [("b", Val.str "1"), ("a", Val.str "2")])]), ("c", some [])]).count =
      ([("a", some [("dependencies", Val.table
        [("b", Val.str "1"), ("a", Val.str "2")])]),
        ("c", (some [] : Option Doc))].filter (fun f =>
        match f.2 with
        | some d => hasSortableRegion d
        | none => false)).length :=
  claim7_amended
    [("a", some [("dependencies", Val.table
      [("b", Val.str "1"), ("a", Val.str "2")])]), ("c", some [])]
    (by decide)

/-- Claim C8, counterexample: a `sort` run over a sortable first file and a
malformed second file writes the first file before aborting, so a parse
failure does not prevent every write of the run. -/
theorem claim8_counterexample :
    (sortRun false [("f1", some [("dependencies", Val.table
        [("b", Val.str "1"), ("a", Val.str "2")])]), ("f2", none)]).writes = ["f1"]
    ∧ (sortRun false [("f1", some [("dependencies", Val.table
        [("b", Val.str "1"), ("a", Val.str "2")])]), ("f2", none)]).failed = true :=
  ⟨rfl, rfl⟩

/-- Claim C8, amended: `hoist` parses every discovered file before its first
write, so any malformed manifest aborts the run with no file written; `sort`
instead processes files one by one, so exactly the flagged cleanly-parsed
files strictly before the first malformed one are written. -/
theorem claim8_amended (dry : Bool) (files : List (String × Option Doc))
    (h : ∃ f ∈ files, f.2 = none) :
    writesOf (hoistFullRun dry files) = []
    ∧ ∀ files2 : List (String × Option Doc),
        (sortRun false files2).writes =
          ((files2.takeWhile (fun f => (f.2).isSome)).filter wouldWrite).map
            Prod.fst := by
  constructor
  · cases files with
    | nil => rfl
    | cons f rest =>
        unfold hoistFullRun
        rw [parseAll_eq_none _ h]
        rfl
  · intro files2
    unfold sortRun
    rw [sortRunFrom_writes]
    rfl

/-- Claim C8, witness: the amended theorem applied to a file list whose
only entry is malformed. -/
theorem claim8_amended_witness :
    writesOf (hoistFullRun false [("root", none)]) = []
    ∧ ∀ files2 : List (String × Option Doc),
        (sortRun false files2).writes =
          ((files2.takeWhile (fun f => (f.2).isSome)).filter wouldWrite).map
            Prod.fst :=
  claim8_amended false [("root", none)] ⟨("root", none), by simp⟩

/-- Claim C10: `sort` backs up every discovered manifest before reading it,
regardless of the dry-run flag and of whether the file needs any change:
after a run over cleanly-parsed files, the backup list is exactly the
discovered file list. -/
theorem claim10_sort_backups (dry : Bool) (files : List (String × Option Doc))
    (h : ∀ f ∈ files, (f.2).isSome) :
    (sortRun dry files).backups = files.map Prod.fst := by
  unfold sortRun
  rw [sortRunFrom_backups dry _ files h]
  rfl

/-- Claim C10, witness: a dry run over an already-sorted manifest still
backs it up. -/
theorem claim10_sort_backups_witness :
    (sortRun true [("a", some [("dependencies", Val.table
        [("alpha", Val.str "1")])])]).backups = ["a"] :=
  claim10_sort_backups true
    [("a", some [("dependencies", Val.table [("alpha", Val.str "1")])])]
    (by decide)

/-! ### Write-list lemmas for hoist -/

theorem mem_flat_addOcc (acc : List (String × List Occ)) (d : String) (o o' : Occ) :
    o' ∈ (addOcc acc d o).flatMap (fun e => e.2) ↔
      o' ∈ acc.flatMap (fun e => e.2) ∨ o' = o := by
  induction acc with
  | nil => simp [addOcc]
  | cons e rest ih =>
      rcases e with ⟨d', os⟩
      by_cases hd : d' = d
      · subst hd
        simp [addOcc]
        constructor
        · rintro (h1 | h1 | h1)
          · exact Or.inl (Or.inl h1)
          · exact Or.inr h1
          · exact Or.inl (Or.inr h1)
        · rintro ((h1 | h1) | h1)
          · exact Or.inl h1
          · exact Or.inr (Or.inr h1)
          · exact Or.inr (Or.inl h1)
      · simp only [addOcc, if_neg hd, List.flatMap_cons, List.mem_append, ih]
        tauto

theorem mem_flat_groupOccs (pairs : List (String × Occ)) (o : Occ) :
    o ∈ (groupOccs pairs).flatMap (fun e => e.2) ↔ ∃ d, (d, o) ∈ pairs := by
  suffices hgen : ∀ acc : List (String × List Occ),
      o ∈ (pairs.foldl (fun a e => addOcc a e.1 e.2) acc).flatMap (fun e => e.2) ↔
        o ∈ acc.flatMap (fun e => e.2) ∨ ∃ d, (d, o) ∈ pairs by
    have := hgen []
    simpa [groupOccs] using this
  induction pairs with
  | nil => simp
  | cons q rest ih =>
      intro acc
      rw [List.foldl_cons, ih (addOcc acc q.1 q.2), mem_flat_addOcc]
      constructor
      · rintro ((h1 | h1) | h1)
        · exact Or.inl h1
        · exact Or.inr ⟨q.1, by rw [h1]; exact List.mem_cons_self _ _⟩
        · rcases h1 with ⟨d, hd⟩
          exact Or.inr ⟨d, List.mem_cons_of_mem _ hd⟩
      · rintro (h1 | ⟨d, hd⟩)
        · exact Or.inl (Or.inl h1)
        · rcases List.mem_cons.1 hd with h2 | h2
          · left; right
            rw [← h2]
          · exact Or.inr ⟨d, h2⟩

theorem mem_seenFold (rootPath : String) (ps : List String) (p : String) :
    p ∈ seenFold rootPath ps ↔ p ∈ ps ∧ p ≠ rootPath := by
  suffices hgen : ∀ acc : List String, (∀ x ∈ acc, x ≠ rootPath) →
      (p ∈ ps.foldl (fun seen q =>
          if seen.contains q || q = rootPath then seen else seen ++ [q]) acc ↔
        p ∈ acc ∨ (p ∈ ps ∧ p ≠ rootPath)) by
    have := hgen [] (by simp)
    simpa [seenFold] using this
  induction ps with
  | nil => intro acc hacc; simp
  | cons q rest ih =>
      intro acc hacc
      rw [List.foldl_cons]
      by_cases hc : (acc.contains q || q = rootPath) = true
      · simp only [hc, if_true]
        rw [ih acc hacc]
        simp only [List.mem_cons]
        constructor
        · rintro (h1 | h1)
          · exact Or.inl h1
          · exact Or.inr ⟨Or.inr h1.1, h1.2⟩
        · rintro (h1 | ⟨h2 | h2, h3⟩)
          · exact Or.inl h1
          · subst h2
            rcases Bool.or_eq_true_iff.1 hc with hq | hq
            · exact Or.inl (by simpa using hq)
            · exact absurd (by simpa using hq) h3
          · exact Or.inr ⟨h2, h3⟩
      · have hc' : (acc.contains q || q = rootPath) = false := by
          simpa using hc
        rcases Bool.or_eq_false_iff.1 hc' with ⟨hq1, hq2⟩
        have hqroot : q ≠ rootPath := by simpa using hq2
        simp only [hc', Bool.false_eq_true, if_false]
        rw [ih (acc ++ [q]) (by
          intro x hx
          rcases List.mem_append.1 hx with h1 | h1
          · exact hacc x h1
          · have : x = q := by simpa using h1
            exact this ▸ hqroot)]
        simp only [List.mem_append, List.mem_cons, List.not_mem_nil, or_false,
          List.mem_singleton]
        constructor
        · rintro ((h1 | h1) | h1)
          · exact Or.inl h1
          · exact Or.inr ⟨Or.inl h1, h1 ▸ hqroot⟩
          · exact Or.inr ⟨Or.inr h1.1, h1.2⟩
        · rintro (h1 | ⟨h2 | h2, h3⟩)
          · exact Or.inl (Or.inl h1)
          · exact Or.inl (Or.inr h2)
          · exact Or.inr ⟨h2, h3⟩

/-- Claim C6, counterexample: a member manifest whose only collected
dependency is skipped (a path-only `bar`) is rewritten nowhere, yet a
non-dry `hoist` run still writes it and backs it up. -/
theorem claim6_counterexample :
    (hoistRun "root" false [] [("m", [("dependencies", Val.table
        [("bar", Val.inlineTable [("path", Val.str "../bar")])])])]).writes = ["m"]
    ∧ (hoistRun "root" false [] [("m", [("dependencies", Val.table
        [("bar", Val.inlineTable [("path", Val.str "../bar")])])])]).backups = ["m"]
    ∧ (hoistCore [] [("m", [("dependencies", Val.table
        [("bar", Val.inlineTable [("path", Val.str "../bar")])])])]).members =
      [("m", [("dependencies", Val.table
        [("bar", Val.inlineTable [("path", Val.str "../bar")])])])]
    ∧ (hoistCore [] [("m", [("dependencies", Val.table
        [("bar", Val.inlineTable [("path", Val.str "../bar")])])])]).added = 0 :=
  ⟨rfl, rfl, rfl, rfl⟩

/-- Claim C6, amended: a non-dry `hoist` writes (and backs up, with the
same list) the root manifest exactly when entries were added, and every
member manifest owning at least one collected occurrence, whether or not
any of its declarations was rewritten, deduplicated in first-occurrence
order. -/
theorem claim6_amended (rootPath : String) (root : Doc)
    (members : List (String × Doc)) (p : String) :
    (hoistRun rootPath false root members).backups =
      (hoistRun rootPath false root members).writes
    ∧ (p ∈ (hoistRun rootPath false root members).writes ↔
        ((p = rootPath ∧ (hoistCore root members).added ≠ 0)
          ∨ (p ≠ rootPath ∧ ∃ e ∈ collectAll members, e.2.p = p))) := by
  constructor
  · rfl
  · show p ∈ hoistWriteList rootPath (hoistCore root members).added
        (groupOccs (collectAll members)) ↔ _
    unfold hoistWriteList memberWriteList
    rw [List.mem_append, mem_seenFold]
    have hpaths : p ∈ ((groupOccs (collectAll members)).flatMap
        (fun e => e.2)).map (fun o => o.p) ↔
        ∃ e ∈ collectAll members, e.2.p = p := by
      rw [List.mem_map]
      constructor
      · rintro ⟨o, ho, hop⟩
        rcases (mem_flat_groupOccs _ o).1 ho with ⟨d, hd⟩
        exact ⟨(d, o), hd, hop⟩
      · rintro ⟨e, he, hep⟩
        exact ⟨e.2, (mem_flat_groupOccs _ e.2).2 ⟨e.1, by exact he⟩, hep⟩
    rw [hpaths]
    by_cases ha : (hoistCore root members).added ≠ 0
    · simp [ha]
      tauto
    · simp only [ne_eq, Decidable.not_not] at ha
      simp [ha]
      tauto

/-- Claim C6, amended, witness: in the counterexample tree the member path
is reported written because it owns a collected occurrence. -/
theorem claim6_amended_witness :
    (hoistRun "root" false [] [("m", [("dependencies", Val.table
        [("bar", Val.inlineTable [("path", Val.str "../bar")])])])]).backups =
      (hoistRun "root" false [] [("m", [("dependencies", Val.table
        [("bar", Val.inlineTable [("path", Val.str "../bar")])])])]).writes
    ∧ ("m" ∈ (hoistRun "root" false [] [("m", [("dependencies", Val.table
        [("bar", Val.inlineTable [("path", Val.str "../bar")])])])]).writes ↔
        (("m" = "root" ∧ (hoistCore [] [("m", [("dependencies", Val.table
          [("bar", Val.inlineTable [("path", Val.str "../bar")])])])]).added ≠ 0)
          ∨ ("m" ≠ "root" ∧ ∃ e ∈ collectAll [("m", [("dependencies", Val.table
            [("bar", Val.inlineTable [("path", Val.str "../bar")])])])],
              e.2.p = "m"))) :=
  claim6_amended "root" []
    [("m", [("dependencies", Val.table
      [("bar", Val.inlineTable [("path", Val.str "../bar")])])])] "m"

/-! ### Sort ordering and idempotence -/

/-- Strict code-point order on strings. -/
def strLt (a b : String) : Prop := strLe a b ∧ a ≠ b

/-- The entry conversion of `sort_deps_table`. -/
def ce (e : String × Val) : String × Val := (e.1, convVal e.2)

theorem convVal_convVal (v : Val) : convVal (convVal v) = convVal v := by
  cases v with
  | table fs =>
      by_cases h : fs.isEmpty = true
      · simp [convVal, h]
      · simp only [Bool.not_eq_true] at h
        simp [convVal, h]
  | inlineTable fs => rfl
  | str s => rfl
  | boolean b => rfl
  | arr xs => rfl

theorem ce_fst (e : String × Val) : (ce e).1 = e.1 := rfl

theorem map_fst_map_ce (l : List (String × Val)) :
    (l.map ce).map Prod.fst = l.map Prod.fst := by
  rw [List.map_map]
  rfl

theorem pairwise_keyLe_map_ce {l : List (String × Val)}
    (h : List.Pairwise keyLe l) : List.Pairwise keyLe (l.map ce) :=
  h.map ce (fun _ _ hab => hab)

theorem filter_map_ce (p : (String × Val) → Bool) (hp : ∀ e, p (ce e) = p e)
    (l : List (String × Val)) :
    (l.map ce).filter p = (l.filter p).map ce := by
  rw [List.filter_map]
  apply congrArg
  apply List.filter_congr
  intro e _
  exact hp e

theorem sort_deps_table_split (gs : Fields) :
    sort_deps_table gs =
      ((gs.filter (fun e => startsWithB e.1 "kintsu")).insertionSort keyLe).map ce
      ++ ((gs.filter (fun e => !startsWithB e.1 "kintsu")).insertionSort keyLe).map ce := by
  unfold sort_deps_table
  exact List.map_append ce _ _

theorem sort_deps_table_idem (fs : Fields) :
    sort_deps_table (sort_deps_table fs) = sort_deps_table fs := by
  have hK : ∀ e ∈ (fs.filter (fun e => startsWithB e.1 "kintsu")).insertionSort keyLe,
      startsWithB e.1 "kintsu" = true := by
    intro e he
    exact (List.mem_filter.1 ((List.mem_insertionSort keyLe).1 he)).2
  have hO : ∀ e ∈ (fs.filter (fun e => !startsWithB e.1 "kintsu")).insertionSort keyLe,
      startsWithB e.1 "kintsu" = false := by
    intro e he
    have := (List.mem_filter.1 ((List.mem_insertionSort keyLe).1 he)).2
    simpa using this
  set K := (fs.filter (fun e => startsWithB e.1 "kintsu")).insertionSort keyLe with hKdef
  set O := (fs.filter (fun e => !startsWithB e.1 "kintsu")).insertionSort keyLe with hOdef
  have hKce : ∀ e ∈ K.map ce, startsWithB e.1 "kintsu" = true := by
    intro e he
    rcases List.mem_map.1 he with ⟨e0, he0, hee0⟩
    rw [← hee0]
    exact hK e0 he0
  have hOce : ∀ e ∈ O.map ce, startsWithB e.1 "kintsu" = false := by
    intro e he
    rcases List.mem_map.1 he with ⟨e0, he0, hee0⟩
    rw [← hee0]
    exact hO e0 he0
  rw [sort_deps_table_split fs, sort_deps_table_split]
  rw [List.filter_append, List.filter_append]
  rw [List.filter_eq_self.2 hKce,
    List.filter_eq_nil_iff.2 (fun e he hp => by rw [hOce e he] at hp; cases hp),
    List.filter_eq_nil_iff.2 (fun e he hp => by
      rw [hKce e he] at hp
      simp at hp),
    List.filter_eq_self.2 (fun e he => by rw [hOce e he]; rfl)]
  rw [List.append_nil, List.nil_append]
  have hsortK : (K.map ce).insertionSort keyLe = K.map ce :=
    List.Sorted.insertionSort_eq
      (pairwise_keyLe_map_ce (List.sorted_insertionSort keyLe _))
  have hsortO : (O.map ce).insertionSort keyLe = O.map ce :=
    List.Sorted.insertionSort_eq
      (pairwise_keyLe_map_ce (List.sorted_insertionSort keyLe _))
  rw [hsortK, hsortO]
  have hcece : ∀ l : List (String × Val), (l.map ce).map ce = l.map ce := by
    intro l
    rw [List.map_map]
    apply List.map_congr_left
    intro e _
    show (e.1, convVal (convVal e.2)) = (e.1, convVal e.2)
    rw [convVal_convVal]
  rw [hcece, hcece]

theorem sortStrings_idem (xs : List String) :
    sortStrings (sortStrings xs) = sortStrings xs :=
  List.Sorted.insertionSort_eq (List.sorted_insertionSort strLe xs)

/-- Lookup characterization of the section fold at a processed section. -/
theorem sortSecFold_getF_mem (secs : List String) (doc : Doc) (b : Bool)
    (sec : String) (hnd : secs.Nodup) (hmem : sec ∈ secs) :
    getF (secs.foldl sortSecStep (doc, b)).1 sec =
      (match getF doc sec with
       | some (.table fs) => some (.table (sort_deps_table fs))
       | v => v) := by
  induction secs generalizing doc b with
  | nil => simp at hmem
  | cons s rest ih =>
      simp only [List.nodup_cons] at hnd
      rw [List.foldl_cons]
      rcases List.mem_cons.1 hmem with heq | hrest
      · subst heq
        have hnotin : sec ∉ rest := hnd.1
        have hget := sortSecFold_getF_not_mem rest
          (sortSecStep (doc, b) sec).1 (sortSecStep (doc, b) sec).2 sec hnotin
        refine hget.trans ?_
        cases hs : getF doc sec with
        | none => simp [sortSecStep, hs]
        | some w =>
            cases w with
            | table fs => simp [sortSecStep, hs, getF_setF_self]
            | inlineTable fs => simp [sortSecStep, hs]
            | str s2 => simp [sortSecStep, hs]
            | boolean b2 => simp [sortSecStep, hs]
            | arr xs => simp [sortSecStep, hs]
      · have hne : sec ≠ s := by
          intro heq
          rw [heq] at hrest
          exact hnd.1 hrest
        have := ih (sortSecStep (doc, b) s).1 (sortSecStep (doc, b) s).2
          hnd.2 hrest
        rw [this, sortSecStep_getF_ne _ _ _ hne]

/-- A document on which one more `sort` pass is the identity. -/
def SortFixed (doc : Doc) : Prop :=
  (∀ sec ∈ SECTIONS, ∀ fs, getF doc sec = some (.table fs) →
    sort_deps_table fs = fs)
  ∧ (∀ ws, getF doc "workspace" = some (.table ws) →
      (∀ ds, getF ws "dependencies" = some (.table ds) →
        sort_deps_table ds = ds)
      ∧ (∀ xs, getF ws "members" = some (.arr xs) → sortStrings xs = xs))

theorem secFold_fixed (secs : List String) (doc : Doc) (b : Bool)
    (hfix : ∀ sec ∈ secs, ∀ fs, getF doc sec = some (.table fs) →
      sort_deps_table fs = fs) :
    (secs.foldl sortSecStep (doc, b)).1 = doc := by
  induction secs generalizing b with
  | nil => rfl
  | cons s rest ih =>
      rw [List.foldl_cons]
      have hstep : sortSecStep (doc, b) s = (doc, (sortSecStep (doc, b) s).2) := by
        cases hs : getF doc s with
        | none => simp [sortSecStep, hs]
        | some w =>
            cases w with
            | table fs =>
                have hfs := hfix s (List.mem_cons_self _ _) fs hs
                simp only [sortSecStep, hs, hfs]
                rw [setF_getF_self _ _ _ (hfs ▸ hs)]
            | inlineTable fs => simp [sortSecStep, hs]
            | str s2 => simp [sortSecStep, hs]
            | boolean b2 => simp [sortSecStep, hs]
            | arr xs => simp [sortSecStep, hs]
      rw [hstep]
      exact ih _ (fun sec hsec => hfix sec (List.mem_cons_of_mem _ hsec))

theorem sortDoc_fst_of_fixed (doc : Doc) (h : SortFixed doc) :
    (sortDoc doc).1 = doc := by
  rcases h with ⟨hsec, hws⟩
  simp only [sortDoc]
  have hfold : (SECTIONS.foldl sortSecStep (doc, false)).1 = doc :=
    secFold_fixed SECTIONS doc false hsec
  rw [hfold]
  cases hw : getF doc "workspace" with
  | none => exact hfold
  | some w =>
      cases w with
      | table ws =>
          simp only []
          rcases hws ws hw with ⟨hdeps, hmem⟩
          cases hd : getF ws "dependencies" with
          | none =>
              simp only []
              cases hm : getF ws "members" with
              | none =>
                  simp only []
                  exact setF_getF_self _ _ _ hw
              | some mv =>
                  cases mv with
                  | arr xs =>
                      simp only []
                      rw [hmem xs hm, setF_getF_self _ _ _ hm]
                      exact setF_getF_self _ _ _ hw
                  | str s2 =>
                      simp only []
                      exact setF_getF_self _ _ _ hw
                  | boolean b2 =>
                      simp only []
                      exact setF_getF_self _ _ _ hw
                  | table fs2 =>
                      simp only []
                      exact setF_getF_self _ _ _ hw
                  | inlineTable fs2 =>
                      simp only []
                      exact setF_getF_self _ _ _ hw
          | some dv =>
              cases dv with
              | table ds =>
                  simp only []
                  rw [hdeps ds hd, setF_getF_self _ _ _ hd]
                  cases hm : getF ws "members" with
                  | none =>
                      simp only []
                      exact setF_getF_self _ _ _ hw
                  | some mv =>
                      cases mv with
                      | arr xs =>
                          simp only []
                          rw [hmem xs hm, setF_getF_self _ _ _ hm]
                          exact setF_getF_self _ _ _ hw
                      | str s2 =>
                          simp only []
                          exact setF_getF_self _ _ _ hw
                      | boolean b2 =>
                          simp only []
                          exact setF_getF_self _ _ _ hw
                      | table fs2 =>
                          simp only []
                          exact setF_getF_self _ _ _ hw
                      | inlineTable fs2 =>
                          simp only []
                          exact setF_getF_self _ _ _ hw
              | inlineTable ds =>
                  simp only []
                  cases hm : getF ws "members" with
                  | none =>
                      simp only []
                      exact setF_getF_self _ _ _ hw
                  | some mv =>
                      cases mv with
                      | arr xs =>
                          simp only []
                          rw [hmem xs hm, setF_getF_self _ _ _ hm]
                          exact setF_getF_self _ _ _ hw
                      | str s2 =>
                          simp only []
                          exact setF_getF_self _ _ _ hw
                      | boolean b2 =>
                          simp only []
                          exact setF_getF_self _ _ _ hw
                      | table fs2 =>
                          simp only []
                          exact setF_getF_self _ _ _ hw
                      | inlineTable fs2 =>
                          simp only []
                          exact setF_getF_self _ _ _ hw
              | str s0 =>
                  simp only []
                  cases hm : getF ws "members" with
                  | none =>
                      simp only []
                      exact setF_getF_self _ _ _ hw
                  | some mv =>
                      cases mv with
                      | arr xs =>
                          simp only []
                          rw [hmem xs hm, setF_getF_self _ _ _ hm]
                          exact setF_getF_self _ _ _ hw
                      | str s2 =>
                          simp only []
                          exact setF_getF_self _ _ _ hw
                      | boolean b2 =>
                          simp only []
                          exact setF_getF_self _ _ _ hw
                      | table fs2 =>
                          simp only []
                          exact setF_getF_self _ _ _ hw
                      | inlineTable fs2 =>
                          simp only []
                          exact setF_getF_self _ _ _ hw
              | boolean b0 =>
                  simp only []
                  cases hm : getF ws "members" with
                  | none =>
                      simp only []
                      exact setF_getF_self _ _ _ hw
                  | some mv =>
                      cases mv with
                      | arr xs =>
                          simp only []
                          rw [hmem xs hm, setF_getF_self _ _ _ hm]
                          exact setF_getF_self _ _ _ hw
                      | str s2 =>
                          simp only []
                          exact setF_getF_self _ _ _ hw
                      | boolean b2 =>
                          simp only []
                          exact setF_getF_self _ _ _ hw
                      | table fs2 =>
                          simp only []
                          exact setF_getF_self _ _ _ hw
                      | inlineTable fs2 =>
                          simp only []
                          exact setF_getF_self _ _ _ hw
              | arr xs0 =>
                  simp only []
                  cases hm : getF ws "members" with
                  | none =>
                      simp only []
                      exact setF_getF_self _ _ _ hw
                  | some mv =>
                      cases mv with
                      | arr xs =>
                          simp only []
                          rw [hmem xs hm, setF_getF_self _ _ _ hm]
                          exact setF_getF_self _ _ _ hw
                      | str s2 =>
                          simp only []
                          exact setF_getF_self _ _ _ hw
                      | boolean b2 =>
                          simp only []
                          exact setF_getF_self _ _ _ hw
                      | table fs2 =>
                          simp only []
                          exact setF_getF_self _ _ _ hw
                      | inlineTable fs2 =>
                          simp only []
                          exact setF_getF_self _ _ _ hw
      | inlineTable ws => exact hfold
      | str s => exact hfold
      | boolean b => exact hfold
      | arr xs => exact hfold

/-- Lookup characterization of the output of `sortDoc` at a section key. -/
theorem sortDoc_getF_sec (doc : Doc) (sec : String) (hsec : sec ∈ SECTIONS) :
    getF (sortDoc doc).1 sec =
      (match getF doc sec with
       | some (.table fs) => some (.table (sort_deps_table fs))
       | v => v) := by
  have hnw : sec ≠ "workspace" := by
    intro h
    rw [h] at hsec
    exact absurd hsec (by decide)
  have hp1 := sortSecFold_getF_mem SECTIONS doc false sec (by decide) hsec
  simp only [sortDoc]
  rw [sortSecFold_getF_not_mem SECTIONS doc false "workspace" (by decide)]
  cases hw : getF doc "workspace" with
  | none => exact hp1
  | some w =>
      cases w with
      | table ws =>
          simp only []
          rw [getF_setF_ne _ _ _ _ hnw]
          exact hp1
      | inlineTable ws => exact hp1
      | str s => exact hp1
      | boolean b => exact hp1
      | arr xs => exact hp1

/-- The rewrite `sort` applies to a root workspace table. -/
def wsSortTransform (ws : Fields) : Fields :=
  let w1 : Fields := match getF ws "dependencies" with
    | some (.table ds) => setF ws "dependencies" (.table (sort_deps_table ds))
    | _ => ws
  match getF w1 "members" with
  | some (.arr xs) => setF w1 "members" (.arr (sortStrings xs))
  | _ => w1

/-- Lookup characterization of the output of `sortDoc` at `workspace`. -/
theorem sortDoc_getF_workspace (doc : Doc) :
    (∃ ws0, getF doc "workspace" = some (.table ws0)
        ∧ getF (sortDoc doc).1 "workspace" = some (.table (wsSortTransform ws0)))
    ∨ ((∀ ws0, getF doc "workspace" ≠ some (.table ws0))
        ∧ getF (sortDoc doc).1 "workspace" = getF doc "workspace") := by
  have hp1 := sortSecFold_getF_not_mem SECTIONS doc false "workspace" (by decide)
  simp only [sortDoc]
  rw [hp1]
  cases hw : getF doc "workspace" with
  | none =>
      right
      exact ⟨by simp, by rw [hp1, hw]⟩
  | some w =>
      cases w with
      | table ws =>
          left
          refine ⟨ws, rfl, ?_⟩
          simp only []
          rw [getF_setF_self]
          apply congrArg
          apply congrArg
          unfold wsSortTransform
          cases hd : getF ws "dependencies" with
          | none =>
              simp only []
              cases hm : getF ws "members" with
              | none => rfl
              | some mv =>
                  cases mv with
                  | arr xs => rfl
                  | str s => rfl
                  | boolean b => rfl
                  | table fs2 => rfl
                  | inlineTable fs2 => rfl
          | some dv =>
              cases dv with
              | table ds =>
                  simp only []
                  cases hm : getF (setF ws "dependencies"
                      (.table (sort_deps_table ds))) "members" with
                  | none => rfl
                  | some mv =>
                      cases mv with
                      | arr xs => rfl
                      | str s => rfl
                      | boolean b => rfl
                      | table fs2 => rfl
                      | inlineTable fs2 => rfl
              | inlineTable ds =>
                  simp only []
                  cases hm : getF ws "members" with
                  | none => rfl
                  | some mv =>
                      cases mv with
                      | arr xs => rfl
                      | str s => rfl
                      | boolean b => rfl
                      | table fs2 => rfl
                      | inlineTable fs2 => rfl
              | str s0 =>
                  simp only []
                  cases hm : getF ws "members" with
                  | none => rfl
                  | some mv =>
                      cases mv with
                      | arr xs => rfl
                      | str s => rfl
                      | boolean b => rfl
                      | table fs2 => rfl
                      | inlineTable fs2 => rfl
              | boolean b0 =>
                  simp only []
                  cases hm : getF ws "members" with
                  | none => rfl
                  | some mv =>
                      cases mv with
                      | arr xs => rfl
                      | str s => rfl
                      | boolean b => rfl
                      | table fs2 => rfl
                      | inlineTable fs2 => rfl
              | arr xs0 =>
                  simp only []
                  cases hm : getF ws "members" with
                  | none => rfl
                  | some mv =>
                      cases mv with
                      | arr xs => rfl
                      | str s => rfl
                      | boolean b => rfl
                      | table fs2 => rfl
                      | inlineTable fs2 => rfl
      | inlineTable ws => exact Or.inr ⟨by simp, by rw [hp1, hw]⟩
      | str s => exact Or.inr ⟨by simp, by rw [hp1, hw]⟩
      | boolean b => exact Or.inr ⟨by simp, by rw [hp1, hw]⟩
      | arr xs => exact Or.inr ⟨by simp, by rw [hp1, hw]⟩

theorem wsSortTransform_fixed (ws0 : Fields) :
    (∀ ds, getF (wsSortTransform ws0) "dependencies" = some (.table ds) →
      sort_deps_table ds = ds)
    ∧ (∀ xs, getF (wsSortTransform ws0) "members" = some (.arr xs) →
      sortStrings xs = xs) := by
  unfold wsSortTransform
  cases hd : getF ws0 "dependencies" with
  | none =>
      simp only []
      cases hm : getF ws0 "members" with
      | none =>
          refine ⟨fun ds h => ?_, fun xs h => ?_⟩
          try simp only [] at h
          · rw [h] at hd
            cases hd
          · rw [h] at hm
            cases hm
      | some mv =>
          cases mv with
          | arr xs =>
              refine ⟨fun ds h => ?_, fun xs2 h => ?_⟩
              · try simp only [] at h
                rw [getF_setF_ne _ _ _ _ (by decide), hd] at h
                cases h
              · try simp only [] at h
                rw [getF_setF_self] at h
                injection h with h2
                injection h2 with h3
                rw [← h3]
                exact sortStrings_idem xs
          | str s =>
              refine ⟨fun ds h => ?_, fun xs h => ?_⟩
              try simp only [] at h
              · rw [h] at hd
                cases hd
              · rw [h] at hm
                cases hm
          | boolean b =>
              refine ⟨fun ds h => ?_, fun xs h => ?_⟩
              try simp only [] at h
              · rw [h] at hd
                cases hd
              · rw [h] at hm
                cases hm
          | table fs2 =>
              refine ⟨fun ds h => ?_, fun xs h => ?_⟩
              try simp only [] at h
              · rw [h] at hd
                cases hd
              · rw [h] at hm
                cases hm
          | inlineTable fs2 =>
              refine ⟨fun ds h => ?_, fun xs h => ?_⟩
              try simp only [] at h
              · rw [h] at hd
                cases hd
              · rw [h] at hm
                cases hm
  | some dv =>
      cases dv with
      | table ds0 =>
          simp only []
          have hd1 : getF (setF ws0 "dependencies" (.table (sort_deps_table ds0)))
              "dependencies" = some (.table (sort_deps_table ds0)) :=
            getF_setF_self _ _ _
          cases hm : getF (setF ws0 "dependencies"
              (.table (sort_deps_table ds0))) "members" with
          | none =>
              refine ⟨fun ds h => ?_, fun xs h => ?_⟩
              try simp only [] at h
              · rw [hd1] at h
                injection h with h2
                injection h2 with h3
                rw [← h3]
                exact sort_deps_table_idem ds0
              · rw [h] at hm
                cases hm
          | some mv =>
              cases mv with
              | arr xs =>
                  refine ⟨fun ds h => ?_, fun xs2 h => ?_⟩
                  try simp only [] at h
                  · rw [getF_setF_ne _ _ _ _ (by decide), hd1] at h
                    injection h with h2
                    injection h2 with h3
                    rw [← h3]
                    exact sort_deps_table_idem ds0
                  · rw [getF_setF_self] at h
                    injection h with h2
                    injection h2 with h3
                    rw [← h3]
                    exact sortStrings_idem xs
              | str s =>
                  refine ⟨fun ds h => ?_, fun xs h => ?_⟩
                  try simp only [] at h
                  · rw [hd1] at h
                    injection h with h2
                    injection h2 with h3
                    rw [← h3]
                    exact sort_deps_table_idem ds0
                  · rw [h] at hm
                    cases hm
              | boolean b =>
                  refine ⟨fun ds h => ?_, fun xs h => ?_⟩
                  try simp only [] at h
                  · rw [hd1] at h
                    injection h with h2
                    injection h2 with h3
                    rw [← h3]
                    exact sort_deps_table_idem ds0
                  · rw [h] at hm
                    cases hm
              | table fs2 =>
                  refine ⟨fun ds h => ?_, fun xs h => ?_⟩
                  try simp only [] at h
                  · rw [hd1] at h
                    injection h with h2
                    injection h2 with h3
                    rw [← h3]
                    exact sort_deps_table_idem ds0
                  · rw [h] at hm
                    cases hm
              | inlineTable fs2 =>
                  refine ⟨fun ds h => ?_, fun xs h => ?_⟩
                  try simp only [] at h
                  · rw [hd1] at h
                    injection h with h2
                    injection h2 with h3
                    rw [← h3]
                    exact sort_deps_table_idem ds0
                  · rw [h] at hm
                    cases hm
      | inlineTable ds0 =>
          simp only []
          cases hm : getF ws0 "members" with
          | none =>
              refine ⟨fun ds h => ?_, fun xs h => ?_⟩
              try simp only [] at h
              · rw [h] at hd
                cases hd
              · rw [h] at hm
                cases hm
          | some mv =>
              cases mv with
              | arr xs =>
                  refine ⟨fun ds h => ?_, fun xs2 h => ?_⟩
                  try simp only [] at h
                  · rw [getF_setF_ne _ _ _ _ (by decide), hd] at h
                    cases h
                  · rw [getF_setF_self] at h
                    injection h with h2
                    injection h2 with h3
                    rw [← h3]
                    exact sortStrings_idem xs
              | str s =>
                  refine ⟨fun ds h => ?_, fun xs h => ?_⟩
                  try simp only [] at h
                  · rw [h] at hd
                    cases hd
                  · rw [h] at hm
                    cases hm
              | boolean b =>
                  refine ⟨fun ds h => ?_, fun xs h => ?_⟩
                  try simp only [] at h
                  · rw [h] at hd
                    cases hd
                  · rw [h] at hm
                    cases hm
              | table fs2 =>
                  refine ⟨fun ds h => ?_, fun xs h => ?_⟩
                  try simp only [] at h
                  · rw [h] at hd
                    cases hd
                  · rw [h] at hm
                    cases hm
              | inlineTable fs2 =>
                  refine ⟨fun ds h => ?_, fun xs h => ?_⟩
                  try simp only [] at h
                  · rw [h] at hd
                    cases hd
                  · rw [h] at hm
                    cases hm
      | str s0 =>
          simp only []
          cases hm : getF ws0 "members" with
          | none =>
              refine ⟨fun ds h => ?_, fun xs h => ?_⟩
              try simp only [] at h
              · rw [h] at hd
                cases hd
              · rw [h] at hm
                cases hm
          | some mv =>
              cases mv with
              | arr xs =>
                  refine ⟨fun ds h => ?_, fun xs2 h => ?_⟩
                  try simp only [] at h
                  · rw [getF_setF_ne _ _ _ _ (by decide), hd] at h
                    cases h
                  · rw [getF_setF_self] at h
                    injection h with h2
                    injection h2 with h3
                    rw [← h3]
                    exact sortStrings_idem xs
              | str s =>
                  refine ⟨fun ds h => ?_, fun xs h => ?_⟩
                  try simp only [] at h
                  · rw [h] at hd
                    cases hd
                  · rw [h] at hm
                    cases hm
              | boolean b =>
                  refine ⟨fun ds h => ?_, fun xs h => ?_⟩
                  try simp only [] at h
                  · rw [h] at hd
                    cases hd
                  · rw [h] at hm
                    cases hm
              | table fs2 =>
                  refine ⟨fun ds h => ?_, fun xs h => ?_⟩
                  try simp only [] at h
                  · rw [h] at hd
                    cases hd
                  · rw [h] at hm
                    cases hm
              | inlineTable fs2 =>
                  refine ⟨fun ds h => ?_, fun xs h => ?_⟩
                  try simp only [] at h
                  · rw [h] at hd
                    cases hd
                  · rw [h] at hm
                    cases hm
      | boolean b0 =>
          simp only []
          cases hm : getF ws0 "members" with
          | none =>
              refine ⟨fun ds h => ?_, fun xs h => ?_⟩
              try simp only [] at h
              · rw [h] at hd
                cases hd
              · rw [h] at hm
                cases hm
          | some mv =>
              cases mv with
              | arr xs =>
                  refine ⟨fun ds h => ?_, fun xs2 h => ?_⟩
                  try simp only [] at h
                  · rw [getF_setF_ne _ _ _ _ (by decide), hd] at h
                    cases h
                  · rw [getF_setF_self] at h
                    injection h with h2
                    injection h2 with h3
                    rw [← h3]
                    exact sortStrings_idem xs
              | str s =>
                  refine ⟨fun ds h => ?_, fun xs h => ?_⟩
                  try simp only [] at h
                  · rw [h] at hd
                    cases hd
                  · rw [h] at hm
                    cases hm
              | boolean b =>
                  refine ⟨fun ds h => ?_, fun xs h => ?_⟩
                  try simp only [] at h
                  · rw [h] at hd
                    cases hd
                  · rw [h] at hm
                    cases hm
              | table fs2 =>
                  refine ⟨fun ds h => ?_, fun xs h => ?_⟩
                  try simp only [] at h
                  · rw [h] at hd
                    cases hd
                  · rw [h] at hm
                    cases hm
              | inlineTable fs2 =>
                  refine ⟨fun ds h => ?_, fun xs h => ?_⟩
                  try simp only [] at h
                  · rw [h] at hd
                    cases hd
                  · rw [h] at hm
                    cases hm
      | arr xsd =>
          simp only []
          cases hm : getF ws0 "members" with
          | none =>
              refine ⟨fun ds h => ?_, fun xs h => ?_⟩
              try simp only [] at h
              · rw [h] at hd
                cases hd
              · rw [h] at hm
                cases hm
          | some mv =>
              cases mv with
              | arr xs =>
                  refine ⟨fun ds h => ?_, fun xs2 h => ?_⟩
                  try simp only [] at h
                  · rw [getF_setF_ne _ _ _ _ (by decide), hd] at h
                    cases h
                  · rw [getF_setF_self] at h
                    injection h with h2
                    injection h2 with h3
                    rw [← h3]
                    exact sortStrings_idem xs
              | str s =>
                  refine ⟨fun ds h => ?_, fun xs h => ?_⟩
                  try simp only [] at h
                  · rw [h] at hd
                    cases hd
                  · rw [h] at hm
                    cases hm
              | boolean b =>
                  refine ⟨fun ds h => ?_, fun xs h => ?_⟩
                  try simp only [] at h
                  · rw [h] at hd
                    cases hd
                  · rw [h] at hm
                    cases hm
              | table fs2 =>
                  refine ⟨fun ds h => ?_, fun xs h => ?_⟩
                  try simp only [] at h
                  · rw [h] at hd
                    cases hd
                  · rw [h] at hm
                    cases hm
              | inlineTable fs2 =>
                  refine ⟨fun ds h => ?_, fun xs h => ?_⟩
                  try simp only [] at h
                  · rw [h] at hd
                    cases hd
                  · rw [h] at hm
                    cases hm

theorem sortFixed_sortDoc (doc : Doc) : SortFixed (sortDoc doc).1 := by
  constructor
  · intro sec hsecmem fs hget
    rw [sortDoc_getF_sec doc sec hsecmem] at hget
    cases hg : getF doc sec with
    | none =>
        rw [hg] at hget
        cases hget
    | some v =>
        cases v with
        | table fs0 =>
            rw [hg] at hget
            injection hget with h2
            injection h2 with h3
            rw [← h3]
            exact sort_deps_table_idem fs0
        | inlineTable fs0 =>
            rw [hg] at hget
            cases hget
        | str s =>
            rw [hg] at hget
            cases hget
        | boolean b =>
            rw [hg] at hget
            cases hget
        | arr xs =>
            rw [hg] at hget
            cases hget
  · intro ws hget
    rcases sortDoc_getF_workspace doc with ⟨ws0, _, heq⟩ | ⟨hne, heq⟩
    · rw [heq] at hget
      injection hget with h2
      injection h2 with h3
      rw [← h3]
      exact wsSortTransform_fixed ws0
    · rw [heq] at hget
      exact absurd hget (hne ws)

theorem sort_deps_table_ordering (fs : Fields) (hnd : (fs.map Prod.fst).Nodup) :
    ∃ ks os : List String,
      (sort_deps_table fs).map Prod.fst = ks ++ os
      ∧ (∀ k ∈ ks, startsWithB k "kintsu" = true)
      ∧ (∀ k ∈ os, startsWithB k "kintsu" = false)
      ∧ ks.Chain' strLt ∧ os.Chain' strLt := by
  set K := (fs.filter (fun e => startsWithB e.1 "kintsu")).insertionSort keyLe with hKdef
  set O := (fs.filter (fun e => !startsWithB e.1 "kintsu")).insertionSort keyLe with hOdef
  have hchain : ∀ l : List (String × Val), l.Perm (fs.filter (fun e => startsWithB e.1 "kintsu"))
      ∨ l.Perm (fs.filter (fun e => !startsWithB e.1 "kintsu")) →
      List.Pairwise keyLe l → (l.map Prod.fst).Chain' strLt := by
    intro l hperm hsorted
    have hle : List.Pairwise strLe (l.map Prod.fst) :=
      hsorted.map Prod.fst (fun _ _ h => h)
    have hnodup : (l.map Prod.fst).Nodup := by
      rcases hperm with hp | hp
      · refine ((hp.map Prod.fst).nodup_iff).2 ?_
        exact ((List.filter_sublist fs).map Prod.fst).nodup hnd
      · refine ((hp.map Prod.fst).nodup_iff).2 ?_
        exact ((List.filter_sublist fs).map Prod.fst).nodup hnd
    have hlt : List.Pairwise strLt (l.map Prod.fst) := by
      have := hle.and hnodup
      exact this.imp (fun h => ⟨h.1, h.2⟩)
    exact hlt.chain'
  refine ⟨K.map Prod.fst, O.map Prod.fst, ?_, ?_, ?_, ?_, ?_⟩
  · rw [sort_deps_table_split, List.map_append, map_fst_map_ce, map_fst_map_ce]
  · intro k hk
    rcases List.mem_map.1 hk with ⟨e, he, hek⟩
    rw [← hek]
    exact (List.mem_filter.1 ((List.mem_insertionSort keyLe).1 he)).2
  · intro k hk
    rcases List.mem_map.1 hk with ⟨e, he, hek⟩
    rw [← hek]
    have := (List.mem_filter.1 ((List.mem_insertionSort keyLe).1 he)).2
    simpa using this
  · exact hchain K (Or.inl (List.perm_insertionSort keyLe _))
      (List.sorted_insertionSort keyLe _)
  · exact hchain O (Or.inr (List.perm_insertionSort keyLe _))
      (List.sorted_insertionSort keyLe _)

/-- Claim C9: after sorting a dependency table with pairwise-distinct
names, all `kintsu`-prefixed names come first, each of the two groups is
strictly increasing in code-point order, and applying `sort` a second time
to an already-sorted document reproduces it exactly. -/
theorem claim9_sort_order_idem (fs : Fields) (doc : Doc)
    (hnd : (fs.map Prod.fst).Nodup) :
    (∃ ks os : List String,
        (sort_deps_table fs).map Prod.fst = ks ++ os
        ∧ (∀ k ∈ ks, startsWithB k "kintsu" = true)
        ∧ (∀ k ∈ os, startsWithB k "kintsu" = false)
        ∧ ks.Chain' strLt ∧ os.Chain' strLt)
    ∧ (sortDoc (sortDoc doc).1).1 = (sortDoc doc).1 :=
  ⟨sort_deps_table_ordering fs hnd,
    sortDoc_fst_of_fixed _ (sortFixed_sortDoc doc)⟩

/-- Claim C9, witness: the theorem applied to a concrete unsorted table
and a concrete manifest with dependencies, a workspace dependencies table
and a members list. -/
theorem claim9_sort_order_idem_witness :
    (∃ ks os : List String,
        (sort_deps_table [("zeta", Val.str "1"), ("kintsu-b", Val.str "2"),
          ("alpha", Val.table [("version", Val.str "3")]),
          ("kintsu-a", Val.str "4")]).map Prod.fst = ks ++ os
        ∧ (∀ k ∈ ks, startsWithB k "kintsu" = true)
        ∧ (∀ k ∈ os, startsWithB k "kintsu" = false)
        ∧ ks.Chain' strLt ∧ os.Chain' strLt)
    ∧ (sortDoc (sortDoc [("dependencies", Val.table
          [("b", Val.str "1"), ("a", Val.str "2")]),
        ("workspace", Val.table [("members", Val.arr ["y", "x"]),
          ("dependencies", Val.table [("q", Val.str "1"),
            ("kintsu-core", Val.str "2")])])]).1).1 =
      (sortDoc [("dependencies", Val.table
          [("b", Val.str "1"), ("a", Val.str "2")]),
        ("workspace", Val.table [("members", Val.arr ["y", "x"]),
          ("dependencies", Val.table [("q", Val.str "1"),
            ("kintsu-core", Val.str "2")])])]).1 :=
  claim9_sort_order_idem
    [("zeta", Val.str "1"), ("kintsu-b", Val.str "2"),
      ("alpha", Val.table [("version", Val.str "3")]),
      ("kintsu-a", Val.str "4")]
    [("dependencies", Val.table [("b", Val.str "1"), ("a", Val.str "2")]),
      ("workspace", Val.table [("members", Val.arr ["y", "x"]),
        ("dependencies", Val.table [("q", Val.str "1"),
          ("kintsu-core", Val.str "2")])])]
    (by decide)

/-! ### Idempotence of hoist: definitions -/

/-- Well-formed member document: every dependency section stored as a
table has pairwise-distinct dependency names. -/
def secWFb (doc : Doc) : Bool :=
  SECTIONS.all (fun sec =>
    match getF doc sec with
    | some (.table fs) => decide ((fs.map Prod.fst).Nodup)
    | _ => true)

/-- Well-formed member list: pairwise-distinct member paths and
well-formed member documents (always true of a real manifest tree). -/
def membersWFb (members : List (String × Doc)) : Bool :=
  decide ((members.map Prod.fst).Nodup) && members.all (fun m => secWFb m.2)

/-- The resolved version of an occurrence list, or `none` when the
dependency is skipped. -/
def resolvedOf (os : List Occ) : Option Val :=
  match resolveLoop os none with
  | (some v, false) => some v
  | _ => none

/-- Whether a dependency name is hoisted by a run over `members`. -/
def hoistedIn (members : List (String × Doc)) (d : String) : Bool :=
  match getF (groupOccs (collectAll members)) d with
  | some os => (resolvedOf os).isSome
  | none => false

/-- Extend a name predicate by one name. -/
def addKey (h : String → Bool) (d : String) : String → Bool :=
  fun d' => if d' = d then true else h d'

/-- A spec the mutation leaves unchanged (neither a string nor
table-like). -/
def inertSpec : Val → Bool
  | .str _ => false
  | .table _ => false
  | .inlineTable _ => false
  | _ => true

/-- The per-entry effect of a hoist run on a member section: entries whose
name was hoisted and that were collected are rewritten by `mutSpec`. -/
def mapEntry (h : String → Bool) (e : String × Val) : String × Val :=
  if h e.1 && collectibleSpec e.2 then (e.1, mutSpec e.2) else e

/-- One section of the per-document effect of a hoist run. -/
def mapSecStep (h : String → Bool) (dc : Doc) (sec : String) : Doc :=
  match getF dc sec with
  | some (.table fs) => setF dc sec (.table (fs.map (mapEntry h)))
  | _ => dc

/-- The per-document effect of a hoist run on the given sections. -/
def mapDocSecsS (secs : List String) (h : String → Bool) (doc : Doc) : Doc :=
  secs.foldl (mapSecStep h) doc

/-- The per-document effect of a hoist run. -/
def mapDocSecs (h : String → Bool) (doc : Doc) : Doc :=
  mapDocSecsS SECTIONS h doc

/-- The effect of `mutate_member_dep` on one document at one section. -/
def docMut (dc : Doc) (sec d : String) : Doc :=
  match getF dc sec with
  | some (.table fs) =>
      if (getF fs d).isSome then setF dc sec (.table (updAt fs d mutSpec))
      else dc
  | _ => dc

/-- The member-list effect of mutating one occurrence. -/
def applyOcc (ms : List (String × Doc)) (d : String) (o : Occ) :
    List (String × Doc) :=
  updAt ms o.p (fun dc => docMut dc o.sec d)

/-- `collectDoc` restricted to a section list. -/
def collectDocS (secs : List String) (p : String) (doc : Doc) :
    List (String × Occ) :=
  secs.flatMap (fun sec =>
    match getF doc sec with
    | some (.table fs) => collectTable sec p fs
    | _ => [])

/-- The occurrences of one dependency name in a pair list, in order. -/
def filterOccs (pairs : List (String × Occ)) (d : String) : List Occ :=
  (pairs.filter (fun e => decide (e.1 = d))).map Prod.snd

/-- The occurrences of one dependency name within one member. -/
def dOccsS (secs : List String) (p : String) (doc : Doc) (d : String) :
    List Occ :=
  filterOccs (collectDocS secs p doc) d

/-- The occurrences of one dependency name across all members. -/
def dOccsAll (members : List (String × Doc)) (d : String) : List Occ :=
  filterOccs (collectAll members) d

/-! ### Idempotence of hoist: groupOccs lemmas -/

theorem collectDoc_eq_collectDocS (p : String) (doc : Doc) :
    collectDoc p doc = collectDocS SECTIONS p doc := rfl

theorem getF_addOcc_self (acc : List (String × List Occ)) (d : String) (o : Occ) :
    getF (addOcc acc d o) d =
      some ((getF acc d).getD [] ++ [o]) := by
  induction acc with
  | nil => simp [addOcc, getF]
  | cons e rest ih =>
      rcases e with ⟨d', os⟩
      by_cases hd : d' = d
      · subst hd
        simp [addOcc, getF]
      · simp [addOcc, getF, hd, ih]

theorem getF_addOcc_ne (acc : List (String × List Occ)) (d d' : String) (o : Occ)
    (h : d' ≠ d) : getF (addOcc acc d o) d' = getF acc d' := by
  have hne : d ≠ d' := fun hh => h hh.symm
  induction acc with
  | nil => simp [addOcc, getF, hne]
  | cons e rest ih =>
      rcases e with ⟨d0, os⟩
      by_cases hd : d0 = d
      · subst hd
        simp [addOcc, getF, hne]
      · by_cases hd' : d0 = d'
        · simp [addOcc, getF, hd, hd', hne, h]
        · simp [addOcc, getF, hd, hd', ih]

theorem groupFold_getD (pairs : List (String × Occ)) (d : String) :
    ∀ acc : List (String × List Occ),
      (getF (pairs.foldl (fun a e => addOcc a e.1 e.2) acc) d).getD [] =
        (getF acc d).getD [] ++ filterOccs pairs d := by
  induction pairs with
  | nil => intro acc; simp [filterOccs]
  | cons e rest ih =>
      intro acc
      rw [List.foldl_cons]
      by_cases hd : e.1 = d
      · rw [ih (addOcc acc e.1 e.2), hd, getF_addOcc_self]
        simp only [Option.getD_some]
        rw [List.append_assoc]
        apply congrArg
        simp [filterOccs, hd]
      · rw [ih (addOcc acc e.1 e.2), getF_addOcc_ne _ _ _ _ (fun hh => hd hh.symm)]
        apply congrArg
        simp [filterOccs, hd]

theorem getF_groupOccs_getD (pairs : List (String × Occ)) (d : String) :
    (getF (groupOccs pairs) d).getD [] = filterOccs pairs d := by
  have := groupFold_getD pairs d []
  simpa [groupOccs] using this

theorem getF_groupOccs_some (pairs : List (String × Occ)) (d : String)
    (os : List Occ) (h : getF (groupOccs pairs) d = some os) :
    os = filterOccs pairs d := by
  have := getF_groupOccs_getD pairs d
  rw [h] at this
  simpa using this

theorem getF_groupOccs_none (pairs : List (String × Occ)) (d : String)
    (h : getF (groupOccs pairs) d = none) : filterOccs pairs d = [] := by
  have := getF_groupOccs_getD pairs d
  rw [h] at this
  simpa using this

theorem keys_addOcc_mem (acc : List (String × List Occ)) (d : String) (o : Occ)
    (h : d ∈ acc.map Prod.fst) :
    (addOcc acc d o).map Prod.fst = acc.map Prod.fst := by
  induction acc with
  | nil => simp at h
  | cons e rest ih =>
      by_cases hd : e.1 = d
      · rcases e with ⟨d0, os⟩
        simp only [] at hd
        subst hd
        simp [addOcc]
      · rcases e with ⟨d0, os⟩
        simp only [] at hd
        have h' : d ∈ rest.map Prod.fst := by
          rcases List.mem_cons.1 h with h1 | h1
          · exact absurd h1.symm hd
          · exact h1
        simp [addOcc, hd, ih h']

theorem keys_addOcc_not_mem (acc : List (String × List Occ)) (d : String) (o : Occ)
    (h : d ∉ acc.map Prod.fst) :
    (addOcc acc d o).map Prod.fst = acc.map Prod.fst ++ [d] := by
  induction acc with
  | nil => simp [addOcc]
  | cons e rest ih =>
      rcases e with ⟨d0, os⟩
      have hd : d0 ≠ d := by
        intro hh
        exact h (by simp [hh])
      have h' : d ∉ rest.map Prod.fst := fun hh => h (by simp [hh])
      simp [addOcc, hd, ih h']

theorem keys_groupOccs_nodup (pairs : List (String × Occ)) :
    ((groupOccs pairs).map Prod.fst).Nodup := by
  suffices hgen : ∀ acc : List (String × List Occ), (acc.map Prod.fst).Nodup →
      ((pairs.foldl (fun a e => addOcc a e.1 e.2) acc).map Prod.fst).Nodup by
    exact hgen [] (by simp)
  induction pairs with
  | nil => intro acc hacc; exact hacc
  | cons e rest ih =>
      intro acc hacc
      rw [List.foldl_cons]
      apply ih
      by_cases hmem : e.1 ∈ acc.map Prod.fst
      · rw [keys_addOcc_mem acc e.1 e.2 hmem]
        exact hacc
      · rw [keys_addOcc_not_mem acc e.1 e.2 hmem]
        simp [List.nodup_append, hacc, hmem]

/-! ### Idempotence of hoist: locality lemmas -/

theorem updAt_cons_ne {α : Type} (x : String × α) (l : List (String × α))
    (k : String) (f : α → α) (h : x.1 ≠ k) :
    updAt (x :: l) k f = x :: updAt l k f := by
  unfold updAt
  cases hg : getF l k with
  | none => simp [getF, h, hg]
  | some v => simp [getF, setF, h, hg]

theorem updAt_cons_self {α : Type} (k : String) (v : α) (l : List (String × α))
    (f : α → α) : updAt ((k, v) :: l) k f = (k, f v) :: l := by
  unfold updAt
  simp [getF, setF]

theorem processDep_skip (st : HState) (d : String) (os : List Occ)
    (hfail : resolvedOf os = none) :
    processDep st d os = { st with skipped := st.skipped + 1 } := by
  unfold processDep
  unfold resolvedOf at hfail
  rcases hres : resolveLoop os none with ⟨ver, skip⟩
  rw [hres] at hfail
  cases skip with
  | true =>
      cases ver with
      | none => rfl
      | some v => rfl
  | false =>
      cases ver with
      | none => rfl
      | some v => simp at hfail

theorem hoistCore_counts_zero (root : Doc) (members : List (String × Doc))
    (hall : ∀ e ∈ groupOccs (collectAll members), resolvedOf e.2 = none) :
    (hoistCore root members).added = 0 ∧ (hoistCore root members).updated = 0 := by
  unfold hoistCore
  refine foldl_inv
    (P := fun st : HState => st.added = 0 ∧ st.updated = 0) ⟨rfl, rfl⟩ ?_
  intro st e he hst
  rw [processDep_skip st e.1 e.2 (hall e he)]
  exact hst

theorem mutateOcc_members (st : HState) (d : String) (v : Val) (o : Occ) :
    (mutateOcc st d v o).members =
      updAt st.members o.p (fun dc => docMut dc o.sec d) := by
  unfold updAt
  cases hm : getF st.members o.p with
  | none => simp [mutateOcc, hm]
  | some dc =>
      unfold docMut
      cases hs : getF dc o.sec with
      | none =>
          simp only [mutateOcc, hm, hs]
          rw [setF_getF_self _ _ _ hm]
      | some w =>
          cases w with
          | table fs =>
              by_cases hd : (getF fs d).isSome = true
              · simp [mutateOcc, mutate_member_dep, updAt, hm, hs, hd]
              · simp only [Bool.not_eq_true] at hd
                simp only [mutateOcc, hm, hs, hd, Bool.false_eq_true, if_false]
                rw [setF_getF_self _ _ _ hm]
          | inlineTable fs =>
              simp only [mutateOcc, hm, hs]
              rw [setF_getF_self _ _ _ hm]
          | str s =>
              simp only [mutateOcc, hm, hs]
              rw [setF_getF_self _ _ _ hm]
          | boolean b =>
              simp only [mutateOcc, hm, hs]
              rw [setF_getF_self _ _ _ hm]
          | arr xs =>
              simp only [mutateOcc, hm, hs]
              rw [setF_getF_self _ _ _ hm]

theorem mutateOccFold_members (st : HState) (d : String) (v : Val)
    (os : List Occ) :
    (os.foldl (fun s o => mutateOcc s d v o) st).members =
      os.foldl (fun ms o => applyOcc ms d o) st.members := by
  induction os generalizing st with
  | nil => rfl
  | cons o rest ih =>
      rw [List.foldl_cons, List.foldl_cons, ih, mutateOcc_members st d v o]
      rfl

theorem processDep_members (st : HState) (d : String) (os : List Occ) :
    (processDep st d os).members =
      match resolvedOf os with
      | none => st.members
      | some _ => os.foldl (fun ms o => applyOcc ms d o) st.members := by
  unfold processDep resolvedOf
  rcases hres : resolveLoop os none with ⟨ver, skip⟩
  cases skip with
  | true =>
      cases ver with
      | none => rfl
      | some v => rfl
  | false =>
      cases ver with
      | none => rfl
      | some v =>
          simp only []
          rw [mutateOccFold_members]
          by_cases hmem : (getF (wsDepsOf st.root) d).isNone = true
          · simp [hmem]
          · simp [hmem]

theorem applyOccFold_frame (x : String × Doc) (ms : List (String × Doc))
    (d : String) (os : List Occ) (hos : ∀ o ∈ os, o.p ≠ x.1) :
    os.foldl (fun ms' o => applyOcc ms' d o) (x :: ms) =
      x :: os.foldl (fun ms' o => applyOcc ms' d o) ms := by
  induction os generalizing ms with
  | nil => rfl
  | cons o rest ih =>
      rw [List.foldl_cons, List.foldl_cons]
      have hne : x.1 ≠ o.p := fun h => hos o (List.mem_cons_self _ _) h.symm
      rw [show applyOcc (x :: ms) d o = x :: applyOcc ms d o from
        updAt_cons_ne x ms o.p _ hne]
      exact ih (applyOcc ms d o) (fun o' ho' => hos o' (List.mem_cons_of_mem _ ho'))

theorem applyOccFold_head (p : String) (dc : Doc) (ms : List (String × Doc))
    (d : String) (os : List Occ) (hos : ∀ o ∈ os, o.p = p) :
    os.foldl (fun ms' o => applyOcc ms' d o) ((p, dc) :: ms) =
      (p, os.foldl (fun dc' o => docMut dc' o.sec d) dc) :: ms := by
  induction os generalizing dc with
  | nil => rfl
  | cons o rest ih =>
      rw [List.foldl_cons, List.foldl_cons]
      have hp : o.p = p := hos o (List.mem_cons_self _ _)
      have : applyOcc ((p, dc) :: ms) d o = (p, docMut dc o.sec d) :: ms := by
        unfold applyOcc
        rw [hp]
        exact updAt_cons_self p dc ms _
      rw [this]
      exact ih (docMut dc o.sec d) (fun o' ho' => hos o' (List.mem_cons_of_mem _ ho'))

/-! ### Idempotence of hoist: map-entry lemmas -/

theorem mapEntry_fst (h : String → Bool) (e : String × Val) :
    (mapEntry h e).1 = e.1 := by
  unfold mapEntry
  split <;> rfl

theorem mapEntry_congr (h1 h2 : String → Bool) (e : String × Val)
    (hh : h1 e.1 = h2 e.1) : mapEntry h1 e = mapEntry h2 e := by
  unfold mapEntry
  rw [hh]

theorem mapEntry_ne_key (h : String → Bool) (d : String) (e : String × Val)
    (hne : e.1 ≠ d) : mapEntry (addKey h d) e = mapEntry h e :=
  mapEntry_congr _ _ e (by simp [addKey, hne])

theorem mapEntry_of_false (h : String → Bool) (e : String × Val)
    (hg : (h e.1 && collectibleSpec e.2) = false) : mapEntry h e = e := by
  unfold mapEntry
  rw [hg]
  rfl

theorem getF_cons_self {α : Type} (k : String) (v : α) (l : List (String × α)) :
    getF ((k, v) :: l) k = some v := by
  simp [getF]

theorem getF_cons_ne {α : Type} (x : String × α) (l : List (String × α))
    (k : String) (h : x.1 ≠ k) : getF (x :: l) k = getF l k := by
  rcases x with ⟨a, b⟩
  simp only [] at h
  simp [getF, h]

theorem getF_map_mapEntry (h : String → Bool) (fs : Fields) (k : String) :
    getF (fs.map (mapEntry h)) k =
      (getF fs k).map (fun v => if h k && collectibleSpec v then mutSpec v else v) := by
  induction fs with
  | nil => rfl
  | cons e rest ih =>
      by_cases he : e.1 = k
      · subst he
        by_cases hcol : (h e.1 && collectibleSpec e.2) = true
        · have hme : mapEntry h e = (e.1, mutSpec e.2) := by
            unfold mapEntry
            rw [if_pos hcol]
          rcases Bool.and_eq_true_iff.1 hcol with ⟨h1, h2⟩
          rw [List.map_cons, hme]
          simp [getF, h1, h2]
        · simp only [Bool.not_eq_true] at hcol
          have hme : mapEntry h e = e := mapEntry_of_false h e hcol
          rw [List.map_cons, hme]
          have hnc : ¬(h e.1 = true ∧ collectibleSpec e.2 = true) := by
            rintro ⟨h1, h2⟩
            rw [h1, h2] at hcol
            cases hcol
          simp [getF, hnc]
      · rw [List.map_cons,
          getF_cons_ne _ _ _ (by rw [mapEntry_fst]; exact he),
          getF_cons_ne _ _ _ he]
        exact ih

theorem updAt_map_mapEntry (fs : Fields) (h : String → Bool) (d : String)
    (hnd : (fs.map Prod.fst).Nodup) (s : Val) (hget : getF fs d = some s)
    (hcol : collectibleSpec s = true) (hd : h d = false) :
    updAt (fs.map (mapEntry h)) d mutSpec = fs.map (mapEntry (addKey h d)) := by
  induction fs with
  | nil => simp [getF] at hget
  | cons e rest ih =>
      simp only [List.map_cons, List.nodup_cons] at hnd
      by_cases he : e.1 = d
      · rcases e with ⟨k, v⟩
        simp only [] at he
        subst he
        rw [getF_cons_self] at hget
        injection hget with hv
        subst hv
        have hmape : mapEntry h (k, v) = (k, v) :=
          mapEntry_of_false h (k, v) (by simp [hd])
        have hmape' : mapEntry (addKey h k) (k, v) = (k, mutSpec v) := by
          unfold mapEntry
          simp [addKey, hcol]
        rw [List.map_cons, hmape, updAt_cons_self, List.map_cons, hmape']
        apply congrArg
        apply List.map_congr_left
        intro e' he'
        have hne : e'.1 ≠ k := by
          intro hh
          apply hnd.1
          rw [← hh]
          exact List.mem_map.2 ⟨e', he', rfl⟩
        exact (mapEntry_ne_key h k e' hne).symm
      · simp only [getF, if_neg he] at hget
        have hfst : (mapEntry h e).1 = e.1 := mapEntry_fst h e
        rw [List.map_cons, updAt_cons_ne _ _ _ _ (by rw [hfst]; exact he),
          ih hnd.2 hget, List.map_cons, mapEntry_ne_key h d e he]

theorem map_mapEntry_addKey_eq (fs : Fields) (h : String → Bool) (d : String)
    (hno : ∀ e ∈ fs, e.1 = d → collectibleSpec e.2 = false) :
    fs.map (mapEntry (addKey h d)) = fs.map (mapEntry h) := by
  apply List.map_congr_left
  intro e he
  by_cases hed : e.1 = d
  · rw [mapEntry_of_false (addKey h d) e (by simp [hno e he hed]),
      mapEntry_of_false h e (by simp [hno e he hed])]
  · exact mapEntry_ne_key h d e hed

/-! ### Idempotence of hoist: per-section map lemmas -/

theorem mapSecStep_getF_ne (h : String → Bool) (dc : Doc) (sec k : String)
    (hne : k ≠ sec) : getF (mapSecStep h dc sec) k = getF dc k := by
  unfold mapSecStep
  cases hs : getF dc sec with
  | none => rfl
  | some w =>
      cases w with
      | table fs => exact getF_setF_ne _ _ _ _ hne
      | inlineTable fs => rfl
      | str s => rfl
      | boolean b => rfl
      | arr xs => rfl

theorem mapDocSecsS_getF_not_mem (secs : List String) (h : String → Bool)
    (dc : Doc) (k : String) (hk : k ∉ secs) :
    getF (mapDocSecsS secs h dc) k = getF dc k := by
  induction secs generalizing dc with
  | nil => rfl
  | cons s rest ih =>
      have hks : k ≠ s := fun hh => hk (hh ▸ List.mem_cons_self s rest)
      have hkr : k ∉ rest := fun hh => hk (List.mem_cons_of_mem s hh)
      unfold mapDocSecsS
      rw [List.foldl_cons]
      exact (ih (mapSecStep h dc s) hkr).trans (mapSecStep_getF_ne h dc s k hks)

theorem mapDocSecsS_getF_mem (secs : List String) (h : String → Bool)
    (dc : Doc) (sec : String) (hnd : secs.Nodup) (hmem : sec ∈ secs) :
    getF (mapDocSecsS secs h dc) sec =
      (match getF dc sec with
       | some (.table fs) => some (.table (fs.map (mapEntry h)))
       | v => v) := by
  induction secs generalizing dc with
  | nil => simp at hmem
  | cons s rest ih =>
      simp only [List.nodup_cons] at hnd
      unfold mapDocSecsS
      rw [List.foldl_cons]
      rcases List.mem_cons.1 hmem with heq | hrest
      · subst heq
        have hnotin : sec ∉ rest := hnd.1
        refine (mapDocSecsS_getF_not_mem rest h _ sec hnotin).trans ?_
        cases hs : getF dc sec with
        | none => simp [mapSecStep, hs]
        | some w =>
            cases w with
            | table fs => simp [mapSecStep, hs, getF_setF_self]
            | inlineTable fs => simp [mapSecStep, hs]
            | str s2 => simp [mapSecStep, hs]
            | boolean b2 => simp [mapSecStep, hs]
            | arr xs => simp [mapSecStep, hs]
      · have hne : sec ≠ s := by
          intro heq
          rw [heq] at hrest
          exact hnd.1 hrest
        have := ih (mapSecStep h dc s) hnd.2 hrest
        unfold mapDocSecsS at this
        rw [this, mapSecStep_getF_ne h dc s sec hne]

theorem mapDocSecsS_setF_comm (secs : List String) (h : String → Bool)
    (dc : Doc) (s : String) (v : Val) (hs : s ∉ secs) :
    mapDocSecsS secs h (setF dc s v) = setF (mapDocSecsS secs h dc) s v := by
  induction secs generalizing dc with
  | nil => rfl
  | cons sec rest ih =>
      have hss : s ≠ sec := fun hh => hs (hh ▸ List.mem_cons_self sec rest)
      have hsr : s ∉ rest := fun hh => hs (List.mem_cons_of_mem sec hh)
      unfold mapDocSecsS
      rw [List.foldl_cons, List.foldl_cons]
      have hstep : mapSecStep h (setF dc s v) sec = setF (mapSecStep h dc sec) s v := by
        unfold mapSecStep
        rw [getF_setF_ne _ _ _ _ (fun hh : sec = s => hss hh.symm)]
        cases hg : getF dc sec with
        | none => rfl
        | some w =>
            cases w with
            | table fs =>
                exact setF_comm_of_present dc sec s _ v (Val.table fs) hg
                  (fun hh : s = sec => hss hh)
            | inlineTable fs => rfl
            | str s2 => rfl
            | boolean b2 => rfl
            | arr xs => rfl
      rw [hstep]
      exact ih (mapSecStep h dc sec) hsr

theorem mapDocSecsS_congr_h (secs : List String) (h1 h2 : String → Bool)
    (dc : Doc) (hh : ∀ k, h1 k = h2 k) :
    mapDocSecsS secs h1 dc = mapDocSecsS secs h2 dc := by
  induction secs generalizing dc with
  | nil => rfl
  | cons s rest ih =>
      unfold mapDocSecsS
      rw [List.foldl_cons, List.foldl_cons]
      have hstep : mapSecStep h1 dc s = mapSecStep h2 dc s := by
        unfold mapSecStep
        cases hg : getF dc s with
        | none => rfl
        | some w =>
            cases w with
            | table fs =>
                simp only []
                rw [List.map_congr_left (fun e _ => mapEntry_congr h1 h2 e (hh e.1))]
            | inlineTable fs => rfl
            | str s2 => rfl
            | boolean b2 => rfl
            | arr xs => rfl
      rw [hstep]
      exact ih (mapSecStep h2 dc s)

/-! ### Idempotence of hoist: occurrence-filter lemmas -/

theorem filterOccs_append (a b : List (String × Occ)) (d : String) :
    filterOccs (a ++ b) d = filterOccs a d ++ filterOccs b d := by
  unfold filterOccs
  rw [List.filter_append, List.map_append]

theorem filterOccs_nil_of_no_key (l : List (String × Occ)) (d : String)
    (h : ∀ e ∈ l, e.1 ≠ d) : filterOccs l d = [] := by
  unfold filterOccs
  rw [List.filter_eq_nil_iff.2 (fun e he => by simp [h e he])]
  rfl

theorem filterOccs_cons_self (k : String) (o : Occ) (l : List (String × Occ)) :
    filterOccs ((k, o) :: l) k = o :: filterOccs l k := by
  unfold filterOccs
  simp

theorem filterOccs_cons_ne (k d : String) (o : Occ) (l : List (String × Occ))
    (h : k ≠ d) : filterOccs ((k, o) :: l) d = filterOccs l d := by
  unfold filterOccs
  simp [h]

theorem dOccs_collectTable (sec p : String) (fs : Fields) (d : String)
    (hnd : (fs.map Prod.fst).Nodup) :
    filterOccs (collectTable sec p fs) d =
      (match getF fs d with
       | some sv => if collectibleSpec sv then [⟨sec, p, sv⟩] else []
       | none => []) := by
  induction fs with
  | nil => rfl
  | cons e rest ih =>
      simp only [List.map_cons, List.nodup_cons] at hnd
      by_cases he : e.1 = d
      · have hrest : filterOccs (collectTable sec p rest) d = [] := by
          apply filterOccs_nil_of_no_key
          intro e' he'
          rcases List.mem_map.1 he' with ⟨e0, he0, heq⟩
          rw [← heq]
          intro hh
          apply hnd.1
          rw [he]
          rw [← hh]
          exact List.mem_map.2 ⟨e0, List.mem_of_mem_filter he0, rfl⟩
        subst he
        by_cases hcol : collectibleSpec e.2 = true
        · unfold collectTable
          rw [List.filter_cons_of_pos (by simpa using hcol), List.map_cons]
          rw [show ((e.1, (⟨sec, p, e.2⟩ : Occ)) :: (rest.filter
              (fun e => collectibleSpec e.2)).map (fun e => (e.1, ⟨sec, p, e.2⟩)))
              = (e.1, (⟨sec, p, e.2⟩ : Occ)) :: collectTable sec p rest from rfl]
          rw [filterOccs_cons_self, hrest]
          cases e with
          | mk k v => simp [getF, hcol]
        · unfold collectTable
          rw [List.filter_cons_of_neg (by simpa using hcol)]
          rw [show ((rest.filter (fun e => collectibleSpec e.2)).map
              (fun e => (e.1, (⟨sec, p, e.2⟩ : Occ))))
              = collectTable sec p rest from rfl]
          rw [hrest]
          cases e with
          | mk k v =>
              simp only [Bool.not_eq_true] at hcol
              simp [getF, hcol]
      · by_cases hcol : collectibleSpec e.2 = true
        · unfold collectTable
          rw [List.filter_cons_of_pos (by simpa using hcol), List.map_cons]
          rw [show ((e.1, (⟨sec, p, e.2⟩ : Occ)) :: (rest.filter
              (fun e => collectibleSpec e.2)).map (fun e => (e.1, ⟨sec, p, e.2⟩)))
              = (e.1, (⟨sec, p, e.2⟩ : Occ)) :: collectTable sec p rest from rfl]
          rw [filterOccs_cons_ne _ _ _ _ he, ih hnd.2, getF_cons_ne _ _ _ he]
        · unfold collectTable
          rw [List.filter_cons_of_neg (by simpa using hcol)]
          rw [show ((rest.filter (fun e => collectibleSpec e.2)).map
              (fun e => (e.1, (⟨sec, p, e.2⟩ : Occ))))
              = collectTable sec p rest from rfl]
          rw [ih hnd.2, getF_cons_ne _ _ _ he]

theorem collectDocS_congr (secs : List String) (p : String) (doc1 doc2 : Doc)
    (h : ∀ sec ∈ secs, getF doc1 sec = getF doc2 sec) :
    collectDocS secs p doc1 = collectDocS secs p doc2 := by
  induction secs with
  | nil => rfl
  | cons s rest ih =>
      unfold collectDocS
      rw [List.flatMap_cons, List.flatMap_cons]
      rw [h s (List.mem_cons_self _ _)]
      have := ih (fun sec hs => h sec (List.mem_cons_of_mem _ hs))
      unfold collectDocS at this
      rw [this]

theorem dOccsS_congr_aux (secs : List String) (p : String) (doc1 doc2 : Doc)
    (d : String) (h : ∀ sec ∈ secs, getF doc1 sec = getF doc2 sec) :
    dOccsS secs p doc1 d = dOccsS secs p doc2 d := by
  unfold dOccsS
  rw [collectDocS_congr secs p doc1 doc2 h]

theorem dOccsS_decomp (s : String) (rest : List String) (p : String)
    (doc : Doc) (d : String) :
    dOccsS (s :: rest) p doc d =
      (match getF doc s with
       | some (.table fs) => filterOccs (collectTable s p fs) d
       | _ => []) ++ dOccsS rest p doc d := by
  unfold dOccsS collectDocS
  rw [List.flatMap_cons, filterOccs_append]
  cases hs : getF doc s with
  | none => rfl
  | some w =>
      cases w with
      | table fs => rfl
      | inlineTable fs => rfl
      | str s2 => rfl
      | boolean b2 => rfl
      | arr xs => rfl

/-- The heart of the idempotence argument: folding the mutation over the
occurrences of one hoisted name, starting from a partially-rewritten
document, extends the rewrite by that name. -/
theorem dOccsS_fold_docMut (secs : List String) (p : String) (doc : Doc)
    (d : String) (h : String → Bool) (hd0 : h d = false) (hnds : secs.Nodup)
    (hwf : ∀ sec ∈ secs, ∀ fs, getF doc sec = some (.table fs) →
      (fs.map Prod.fst).Nodup) :
    (dOccsS secs p doc d).foldl (fun dc o => docMut dc o.sec d)
        (mapDocSecsS secs h doc) =
      mapDocSecsS secs (addKey h d) doc := by
  induction secs generalizing doc with
  | nil => rfl
  | cons s rest ih =>
      simp only [List.nodup_cons] at hnds
      rw [dOccsS_decomp, List.foldl_append]
      have hunfold : ∀ h' : String → Bool, ∀ dc : Doc,
          mapDocSecsS (s :: rest) h' dc = mapDocSecsS rest h' (mapSecStep h' dc s) := by
        intro h' dc
        rfl
      cases hs : getF doc s with
      | some w =>
          cases w with
          | table fs =>
              have hfsnd := hwf s (List.mem_cons_self _ _) fs hs
              have hstep_h : mapSecStep h doc s =
                  setF doc s (.table (fs.map (mapEntry h))) := by
                unfold mapSecStep
                rw [hs]
              have hstep_h' : mapSecStep (addKey h d) doc s =
                  setF doc s (.table (fs.map (mapEntry (addKey h d)))) := by
                unfold mapSecStep
                rw [hs]
              have hcongrrest : ∀ V : Val, ∀ sec ∈ rest,
                  getF (setF doc s V) sec = getF doc sec := by
                intro V sec hsec
                exact getF_setF_ne _ _ _ _ (fun hh => hnds.1 (hh ▸ hsec))
              simp only []
              rw [dOccs_collectTable s p fs d hfsnd]
              cases hg : getF fs d with
              | some sv =>
                  simp only []
                  by_cases hcol : collectibleSpec sv = true
                  · rw [if_pos hcol]
                    have hXs : getF (mapDocSecsS (s :: rest) h doc) s =
                        some (.table (fs.map (mapEntry h))) := by
                      rw [hunfold h doc]
                      rw [mapDocSecsS_getF_not_mem rest h _ s hnds.1]
                      rw [hstep_h]
                      exact getF_setF_self _ _ _
                    have hpres : (getF (fs.map (mapEntry h)) d).isSome = true := by
                      rw [getF_map_mapEntry, hg]
                      rfl
                    have hdm : docMut (mapDocSecsS (s :: rest) h doc) s d =
                        setF (mapDocSecsS (s :: rest) h doc) s
                          (.table (fs.map (mapEntry (addKey h d)))) := by
                      unfold docMut
                      rw [hXs]
                      simp only []
                      rw [if_pos hpres]
                      rw [updAt_map_mapEntry fs h d hfsnd sv hg hcol hd0]
                    have hchain : docMut (mapDocSecsS (s :: rest) h doc) s d =
                        mapDocSecsS rest h (mapSecStep (addKey h d) doc s) := by
                      rw [hdm, hunfold h doc,
                        ← mapDocSecsS_setF_comm rest h _ s _ hnds.1,
                        hstep_h, setF_setF_same, hstep_h']
                    show (dOccsS rest p doc d).foldl (fun dc o => docMut dc o.sec d)
                        (docMut (mapDocSecsS (s :: rest) h doc) s d) = _
                    rw [hchain]
                    rw [dOccsS_congr_aux rest p doc (mapSecStep (addKey h d) doc s) d
                      (by
                        intro sec hsec
                        rw [hstep_h']
                        exact (hcongrrest _ sec hsec).symm)]
                    rw [ih (mapSecStep (addKey h d) doc s) hnds.2
                      (by
                        intro sec hsec fs2 hget2
                        rw [hstep_h', hcongrrest _ sec hsec] at hget2
                        exact hwf sec (List.mem_cons_of_mem _ hsec) fs2 hget2)]
                    rw [hunfold (addKey h d) doc]
                  · rw [if_neg (by simpa using hcol)]
                    simp only [List.foldl_nil]
                    have hL2 : fs.map (mapEntry (addKey h d)) = fs.map (mapEntry h) := by
                      apply map_mapEntry_addKey_eq
                      intro e he hed
                      have := getF_of_mem_nodup fs e.1 e.2 hfsnd he
                      rw [hed, hg] at this
                      injection this with hsv
                      rw [← hsv]
                      simpa using hcol
                    have hsteps_eq : mapSecStep (addKey h d) doc s = mapSecStep h doc s := by
                      rw [hstep_h, hstep_h', hL2]
                    rw [hunfold h doc]
                    rw [dOccsS_congr_aux rest p doc (mapSecStep h doc s) d
                      (by
                        intro sec hsec
                        rw [hstep_h]
                        exact (hcongrrest _ sec hsec).symm)]
                    rw [ih (mapSecStep h doc s) hnds.2
                      (by
                        intro sec hsec fs2 hget2
                        rw [hstep_h, hcongrrest _ sec hsec] at hget2
                        exact hwf sec (List.mem_cons_of_mem _ hsec) fs2 hget2)]
                    rw [hunfold (addKey h d) doc, hsteps_eq]
              | none =>
                  simp only [List.foldl_nil]
                  try simp only []
                  have hL2 : fs.map (mapEntry (addKey h d)) = fs.map (mapEntry h) := by
                    apply map_mapEntry_addKey_eq
                    intro e he hed
                    have := getF_of_mem_nodup fs e.1 e.2 hfsnd he
                    rw [hed, hg] at this
                    cases this
                  have hsteps_eq : mapSecStep (addKey h d) doc s = mapSecStep h doc s := by
                    rw [hstep_h, hstep_h', hL2]
                  rw [hunfold h doc]
                  rw [dOccsS_congr_aux rest p doc (mapSecStep h doc s) d
                    (by
                      intro sec hsec
                      rw [hstep_h]
                      exact (hcongrrest _ sec hsec).symm)]
                  rw [ih (mapSecStep h doc s) hnds.2
                    (by
                      intro sec hsec fs2 hget2
                      rw [hstep_h, hcongrrest _ sec hsec] at hget2
                      exact hwf sec (List.mem_cons_of_mem _ hsec) fs2 hget2)]
                  rw [hunfold (addKey h d) doc, hsteps_eq]
          | inlineTable fs =>
              simp only [List.foldl_nil]
              have hstep : ∀ h' : String → Bool, mapSecStep h' doc s = doc := by
                intro h'
                unfold mapSecStep
                rw [hs]
              rw [hunfold h doc, hstep h]
              rw [ih doc hnds.2 (fun sec hsec fs2 hget2 =>
                hwf sec (List.mem_cons_of_mem _ hsec) fs2 hget2)]
              rw [hunfold (addKey h d) doc, hstep (addKey h d)]
          | str s2 =>
              simp only [List.foldl_nil]
              have hstep : ∀ h' : String → Bool, mapSecStep h' doc s = doc := by
                intro h'
                unfold mapSecStep
                rw [hs]
              rw [hunfold h doc, hstep h]
              rw [ih doc hnds.2 (fun sec hsec fs2 hget2 =>
                hwf sec (List.mem_cons_of_mem _ hsec) fs2 hget2)]
              rw [hunfold (addKey h d) doc, hstep (addKey h d)]
          | boolean b2 =>
              simp only [List.foldl_nil]
              have hstep : ∀ h' : String → Bool, mapSecStep h' doc s = doc := by
                intro h'
                unfold mapSecStep
                rw [hs]
              rw [hunfold h doc, hstep h]
              rw [ih doc hnds.2 (fun sec hsec fs2 hget2 =>
                hwf sec (List.mem_cons_of_mem _ hsec) fs2 hget2)]
              rw [hunfold (addKey h d) doc, hstep (addKey h d)]
          | arr xs =>
              simp only [List.foldl_nil]
              have hstep : ∀ h' : String → Bool, mapSecStep h' doc s = doc := by
                intro h'
                unfold mapSecStep
                rw [hs]
              rw [hunfold h doc, hstep h]
              rw [ih doc hnds.2 (fun sec hsec fs2 hget2 =>
                hwf sec (List.mem_cons_of_mem _ hsec) fs2 hget2)]
              rw [hunfold (addKey h d) doc, hstep (addKey h d)]
      | none =>
          simp only [List.foldl_nil]
          have hstep : ∀ h' : String → Bool, mapSecStep h' doc s = doc := by
            intro h'
            unfold mapSecStep
            rw [hs]
          rw [hunfold h doc, hstep h]
          rw [ih doc hnds.2 (fun sec hsec fs2 hget2 =>
            hwf sec (List.mem_cons_of_mem _ hsec) fs2 hget2)]
          rw [hunfold (addKey h d) doc, hstep (addKey h d)]

/-! ### Idempotence of hoist: members-level lemmas -/

theorem collectDocS_p (secs : List String) (p : String) (doc : Doc) :
    ∀ e ∈ collectDocS secs p doc, e.2.p = p := by
  intro e he
  unfold collectDocS at he
  rcases List.mem_flatMap.1 he with ⟨sec, hsec, he2⟩
  revert he2
  cases hg : getF doc sec with
  | none => intro he2; cases he2
  | some w =>
      cases w with
      | table fs =>
          intro he2
          rcases List.mem_map.1 he2 with ⟨e0, he0, heq⟩
          rw [← heq]
      | inlineTable fs => intro he2; cases he2
      | str s2 => intro he2; cases he2
      | boolean b2 => intro he2; cases he2
      | arr xs => intro he2; cases he2

theorem dOccsS_p (secs : List String) (p : String) (doc : Doc) (d : String) :
    ∀ o ∈ dOccsS secs p doc d, o.p = p := by
  intro o ho
  unfold dOccsS filterOccs at ho
  rcases List.mem_map.1 ho with ⟨e, he, heq⟩
  rw [← heq]
  exact collectDocS_p secs p doc e (List.mem_of_mem_filter he)

theorem dOccsAll_decomp (m : String × Doc) (rest : List (String × Doc))
    (d : String) :
    dOccsAll (m :: rest) d = dOccsS SECTIONS m.1 m.2 d ++ dOccsAll rest d := by
  unfold dOccsAll collectAll
  rw [List.flatMap_cons, filterOccs_append]
  rfl

theorem dOccsAll_p (ms : List (String × Doc)) (d : String) :
    ∀ o ∈ dOccsAll ms d, o.p ∈ ms.map Prod.fst := by
  induction ms with
  | nil => intro o ho; cases ho
  | cons m rest ih =>
      intro o ho
      rw [dOccsAll_decomp] at ho
      rcases List.mem_append.1 ho with h1 | h2
      · rw [dOccsS_p SECTIONS m.1 m.2 d o h1]
        exact List.mem_cons_self _ _
      · exact List.mem_cons_of_mem _ (ih o h2)

theorem mapDocSecs_getF_sec (H : String → Bool) (doc : Doc) (s : String)
    (hs : s ∈ SECTIONS) :
    getF (mapDocSecs H doc) s =
      (match getF doc s with
       | some (.table fs) => some (.table (fs.map (mapEntry H)))
       | v => v) :=
  mapDocSecsS_getF_mem SECTIONS H doc s (by decide) hs

theorem secWFb_nodup (doc : Doc) (h : secWFb doc = true) (s : String)
    (hs : s ∈ SECTIONS) (fs : Fields) (hg : getF doc s = some (.table fs)) :
    (fs.map Prod.fst).Nodup := by
  unfold secWFb at h
  simp only [List.all_eq_true] at h
  have h2 := h s hs
  rw [hg] at h2
  exact of_decide_eq_true h2

theorem membersWFb_nodup (members : List (String × Doc))
    (h : membersWFb members = true) : (members.map Prod.fst).Nodup := by
  unfold membersWFb at h
  exact of_decide_eq_true (Bool.and_eq_true_iff.1 h).1

theorem membersWFb_sec (members : List (String × Doc))
    (h : membersWFb members = true) : ∀ m ∈ members, secWFb m.2 = true := by
  unfold membersWFb at h
  have h2 := (Bool.and_eq_true_iff.1 h).2
  simp only [List.all_eq_true] at h2
  exact h2

theorem map_fst_mapEntry (H : String → Bool) (fs : Fields) :
    (fs.map (mapEntry H)).map Prod.fst = fs.map Prod.fst := by
  rw [List.map_map]
  exact List.map_congr_left (fun e _ => mapEntry_fst H e)

theorem mapDocSecsS_false (secs : List String) (doc : Doc) :
    mapDocSecsS secs (fun _ => false) doc = doc := by
  induction secs generalizing doc with
  | nil => rfl
  | cons s rest ih =>
      unfold mapDocSecsS
      rw [List.foldl_cons]
      have hstep : mapSecStep (fun _ => false) doc s = doc := by
        unfold mapSecStep
        cases hg : getF doc s with
        | none => rfl
        | some w =>
            cases w with
            | table fs =>
                simp only []
                rw [List.map_congr_left
                  (fun e he => mapEntry_of_false (fun _ => false) e (by simp)),
                  List.map_id']
                exact setF_getF_self doc s _ hg
            | inlineTable fs => rfl
            | str s2 => rfl
            | boolean b2 => rfl
            | arr xs => rfl
      rw [hstep]
      exact ih doc

theorem members_map_congr_h (members : List (String × Doc))
    (g1 g2 : String → Bool) (hh : ∀ k, g1 k = g2 k) :
    members.map (fun m => (m.1, mapDocSecs g1 m.2)) =
      members.map (fun m => (m.1, mapDocSecs g2 m.2)) :=
  List.map_congr_left (fun m _ => by
    unfold mapDocSecs
    rw [mapDocSecsS_congr_h SECTIONS g1 g2 m.2 hh])

/-- Extend a name predicate on a key list by another predicate. -/
def extKeys (g H : String → Bool) (ks : List String) : String → Bool :=
  fun d => if d ∈ ks then H d else g d

/-- Folding the mutation of one dependency name over all its occurrences
rewrites every member document by that name. -/
theorem applyOccFold_members_all (members : List (String × Doc)) (d : String)
    (h : String → Bool) (hd0 : h d = false)
    (hndm : (members.map Prod.fst).Nodup)
    (hwfall : ∀ m ∈ members, secWFb m.2 = true) :
    (dOccsAll members d).foldl (fun ms o => applyOcc ms d o)
        (members.map (fun m => (m.1, mapDocSecs h m.2))) =
      members.map (fun m => (m.1, mapDocSecs (addKey h d) m.2)) := by
  induction members with
  | nil => rfl
  | cons m rest ih =>
      simp only [List.map_cons, List.nodup_cons] at hndm
      rw [dOccsAll_decomp, List.foldl_append, List.map_cons, List.map_cons]
      rw [applyOccFold_head m.1 (mapDocSecs h m.2) _ d _
        (dOccsS_p SECTIONS m.1 m.2 d)]
      rw [show (dOccsS SECTIONS m.1 m.2 d).foldl (fun dc o => docMut dc o.sec d)
            (mapDocSecs h m.2) = mapDocSecs (addKey h d) m.2 from
        dOccsS_fold_docMut SECTIONS m.1 m.2 d h hd0 (by decide)
          (fun s hs fs hg =>
            secWFb_nodup m.2 (hwfall m (List.mem_cons_self _ _)) s hs fs hg)]
      rw [applyOccFold_frame (m.1, mapDocSecs (addKey h d) m.2) _ d _
        (fun o ho hop => hndm.1 (hop ▸ dOccsAll_p rest d o ho))]
      rw [ih hndm.2 (fun m2 hm2 => hwfall m2 (List.mem_cons_of_mem _ hm2))]

/-- The `needed` fold of `hoist` rewrites every member document by the set
of names processed so far that resolved to a version. -/
theorem processFold_members (members : List (String × Doc))
    (hndm : (members.map Prod.fst).Nodup)
    (hwfall : ∀ m ∈ members, secWFb m.2 = true)
    (todo : List (String × List Occ)) (g : String → Bool) (st : HState)
    (hsub : ∀ e ∈ todo, getF (groupOccs (collectAll members)) e.1 = some e.2)
    (hknd : (todo.map Prod.fst).Nodup)
    (hg0 : ∀ e ∈ todo, g e.1 = false)
    (hst : st.members = members.map (fun m => (m.1, mapDocSecs g m.2))) :
    (todo.foldl (fun s e => processDep s e.1 e.2) st).members =
      members.map (fun m => (m.1,
        mapDocSecs (extKeys g (hoistedIn members) (todo.map Prod.fst)) m.2)) := by
  induction todo generalizing g st with
  | nil =>
      simp only [List.foldl_nil]
      rw [hst]
      exact members_map_congr_h members g _ (fun k => by simp [extKeys])
  | cons e rest ih =>
      simp only [List.map_cons, List.nodup_cons] at hknd
      rw [List.foldl_cons]
      have hkey := hsub e (List.mem_cons_self _ _)
      have hos : e.2 = dOccsAll members e.1 := getF_groupOccs_some _ _ _ hkey
      have hH : hoistedIn members e.1 = (resolvedOf e.2).isSome := by
        unfold hoistedIn
        rw [hkey]
      cases hres : resolvedOf e.2 with
      | none =>
          have hm1 : (processDep st e.1 e.2).members = st.members := by
            rw [processDep_members, hres]
          have hHk : hoistedIn members e.1 = false := by
            rw [hH, hres]
            rfl
          have hrec := ih g (processDep st e.1 e.2)
            (fun e2 he2 => hsub e2 (List.mem_cons_of_mem _ he2))
            hknd.2
            (fun e2 he2 => hg0 e2 (List.mem_cons_of_mem _ he2))
            (by rw [hm1, hst])
          rw [hrec]
          apply members_map_congr_h
          intro k
          by_cases hk : k = e.1
          · by_cases hkr : e.1 ∈ rest.map Prod.fst
            · simp [extKeys, hk, hkr, hHk]
            · simp [extKeys, hk, hkr, hHk, hg0 e (List.mem_cons_self _ _)]
          · by_cases hkr : k ∈ rest.map Prod.fst
            · simp [extKeys, hkr, hk]
            · simp [extKeys, hkr, hk]
      | some v =>
          have hm1 : (processDep st e.1 e.2).members =
              members.map (fun m => (m.1, mapDocSecs (addKey g e.1) m.2)) := by
            rw [processDep_members, hres]
            simp only []
            rw [hst, hos]
            exact applyOccFold_members_all members e.1 g
              (hg0 e (List.mem_cons_self _ _)) hndm hwfall
          have hHk : hoistedIn members e.1 = true := by
            rw [hH, hres]
            rfl
          have hrec := ih (addKey g e.1) (processDep st e.1 e.2)
            (fun e2 he2 => hsub e2 (List.mem_cons_of_mem _ he2))
            hknd.2
            (fun e2 he2 => by
              have hne : e2.1 ≠ e.1 := by
                intro hh
                apply hknd.1
                rw [← hh]
                exact List.mem_map.2 ⟨e2, he2, rfl⟩
              simp [addKey, hne, hg0 e2 (List.mem_cons_of_mem _ he2)])
            hm1
          rw [hrec]
          apply members_map_congr_h
          intro k
          by_cases hk : k = e.1
          · have hkr : e.1 ∉ rest.map Prod.fst := hknd.1
            simp [extKeys, hk, hkr, hHk, addKey]
          · by_cases hkr : k ∈ rest.map Prod.fst
            · simp [extKeys, hkr, hk, addKey]
            · simp [extKeys, hkr, hk, addKey]

/-- After one hoist run, every member document is exactly the original one
rewritten at each hoisted-and-collected entry. -/
theorem hoistCore_members (root : Doc) (members : List (String × Doc))
    (hm : membersWFb members = true) :
    (hoistCore root members).members =
      members.map (fun m => (m.1, mapDocSecs (hoistedIn members) m.2)) := by
  have hndm := membersWFb_nodup members hm
  have hwfall := membersWFb_sec members hm
  have hknd := keys_groupOccs_nodup (collectAll members)
  have hid : ∀ m ∈ members, (m.1, mapDocSecs (fun _ => false) m.2) = m := by
    intro m hm2
    unfold mapDocSecs
    rw [mapDocSecsS_false]
  have hinit : members = members.map
      (fun m => (m.1, mapDocSecs (fun _ => false) m.2)) := by
    rw [List.map_congr_left hid]
    simp
  have hmain := processFold_members members hndm hwfall
    (groupOccs (collectAll members)) (fun _ => false)
    ⟨ensure_workspace_deps root, members, 0, 0, 0⟩
    (fun e he => getF_of_mem_nodup _ _ _ hknd he)
    hknd
    (fun e he => rfl)
    hinit
  refine hmain.trans ?_
  apply members_map_congr_h
  intro k
  by_cases hk : k ∈ (groupOccs (collectAll members)).map Prod.fst
  · simp [extKeys, hk]
  · have hnone : getF (groupOccs (collectAll members)) k = none :=
      getF_eq_none_of_not_mem_keys _ _ hk
    have hHk : hoistedIn members k = false := by
      unfold hoistedIn
      rw [hnone]
    simp [extKeys, hk, hHk]

/-! ### Idempotence of hoist: the second run collects nothing hoistable -/

theorem mutSpec_not_recollected (v : Val) :
    collectibleSpec (mutSpec v) = false ∨
      (extract_version (mutSpec v) = none ∧ isSkipSignal (mutSpec v) = false) := by
  cases v with
  | str s => left; rfl
  | table fs =>
      left
      show (!(isTableLike (.table (setF (delF fs "version") "workspace"
          (.boolean true))) && truthyOpt (tblGet (.table (setF (delF fs "version")
          "workspace" (.boolean true))) "workspace"))) = false
      rw [show tblGet (Val.table (setF (delF fs "version") "workspace"
          (.boolean true))) "workspace" = some (.boolean true) from
        getF_setF_self _ _ _]
      rfl
  | inlineTable fs =>
      left
      show (!(isTableLike (.inlineTable (setF (delF fs "version") "workspace"
          (.boolean true))) && truthyOpt (tblGet (.inlineTable (setF (delF fs
          "version") "workspace" (.boolean true))) "workspace"))) = false
      rw [show tblGet (Val.inlineTable (setF (delF fs "version") "workspace"
          (.boolean true))) "workspace" = some (.boolean true) from
        getF_setF_self _ _ _]
      rfl
  | boolean b => right; exact ⟨rfl, rfl⟩
  | arr xs => right; exact ⟨rfl, rfl⟩

theorem resolveLoop_inert (os : List Occ) (acc : Option Val)
    (h : ∀ o ∈ os, extract_version o.spec = none ∧ isSkipSignal o.spec = false) :
    resolveLoop os acc = (acc, false) := by
  induction os generalizing acc with
  | nil => rfl
  | cons o rest ih =>
      have h1 := (h o (List.mem_cons_self _ _)).1
      have h2 := (h o (List.mem_cons_self _ _)).2
      unfold resolveLoop
      rw [h1]
      simp only []
      rw [if_neg (by simp [h2])]
      exact ih acc (fun o2 ho2 => h o2 (List.mem_cons_of_mem _ ho2))

theorem resolvedOf_eq_none_of_inert (os : List Occ)
    (h : ∀ o ∈ os, extract_version o.spec = none ∧ isSkipSignal o.spec = false) :
    resolvedOf os = none := by
  unfold resolvedOf
  rw [resolveLoop_inert os none h]

theorem resolvedOf_of_not_hoisted (members : List (String × Doc)) (d : String)
    (h : hoistedIn members d = false) :
    resolvedOf (dOccsAll members d) = none := by
  unfold hoistedIn at h
  cases hg : getF (groupOccs (collectAll members)) d with
  | some os =>
      rw [hg] at h
      simp only [] at h
      have hfo := getF_groupOccs_some _ _ _ hg
      show resolvedOf (filterOccs (collectAll members) d) = none
      rw [← hfo]
      cases hro : resolvedOf os with
      | none => rfl
      | some v => rw [hro] at h; cases h
  | none =>
      have hnil := getF_groupOccs_none _ _ hg
      show resolvedOf (filterOccs (collectAll members) d) = none
      rw [hnil]
      rfl

theorem dOccsS_mapDocSecs_not_hoisted (secs : List String) (p : String)
    (doc : Doc) (d : String) (H : String → Bool) (hd : H d = false)
    (hsub : ∀ s ∈ secs, s ∈ SECTIONS) (hwf : secWFb doc = true) :
    dOccsS secs p (mapDocSecs H doc) d = dOccsS secs p doc d := by
  induction secs with
  | nil => rfl
  | cons s rest ih =>
      have hsS : s ∈ SECTIONS := hsub s (List.mem_cons_self _ _)
      rw [dOccsS_decomp, dOccsS_decomp,
        ih (fun s2 hs2 => hsub s2 (List.mem_cons_of_mem _ hs2))]
      have hhead : (match getF (mapDocSecs H doc) s with
          | some (.table fs) => filterOccs (collectTable s p fs) d
          | _ => ([] : List Occ)) =
          (match getF doc s with
          | some (.table fs) => filterOccs (collectTable s p fs) d
          | _ => ([] : List Occ)) := by
        rw [mapDocSecs_getF_sec H doc s hsS]
        cases hg : getF doc s with
        | none => rfl
        | some w =>
            cases w with
            | table fs =>
                simp only []
                have hnd := secWFb_nodup doc hwf s hsS fs hg
                have hndm2 : ((fs.map (mapEntry H)).map Prod.fst).Nodup := by
                  rw [map_fst_mapEntry]
                  exact hnd
                rw [dOccs_collectTable s p _ d hndm2,
                  dOccs_collectTable s p fs d hnd, getF_map_mapEntry]
                cases hgd : getF fs d with
                | none => rfl
                | some v => simp [hd]
            | inlineTable fs => rfl
            | str s2 => rfl
            | boolean b2 => rfl
            | arr xs => rfl
      rw [hhead]

theorem dOccsS_mapDocSecs_hoisted (secs : List String) (p : String)
    (doc : Doc) (d : String) (H : String → Bool) (hd : H d = true)
    (hsub : ∀ s ∈ secs, s ∈ SECTIONS) (hwf : secWFb doc = true) :
    ∀ o ∈ dOccsS secs p (mapDocSecs H doc) d,
      extract_version o.spec = none ∧ isSkipSignal o.spec = false := by
  induction secs with
  | nil => intro o ho; cases ho
  | cons s rest ih =>
      intro o ho
      rw [dOccsS_decomp] at ho
      rcases List.mem_append.1 ho with h1 | h2
      · have hsS : s ∈ SECTIONS := hsub s (List.mem_cons_self _ _)
        rw [mapDocSecs_getF_sec H doc s hsS] at h1
        revert h1
        cases hg : getF doc s with
        | none => intro h1; cases h1
        | some w =>
            cases w with
            | table fs =>
                have hnd := secWFb_nodup doc hwf s hsS fs hg
                have hndm2 : ((fs.map (mapEntry H)).map Prod.fst).Nodup := by
                  rw [map_fst_mapEntry]
                  exact hnd
                intro h1
                simp only [] at h1
                rw [dOccs_collectTable s p _ d hndm2, getF_map_mapEntry] at h1
                revert h1
                cases hgd : getF fs d with
                | none => intro h1; cases h1
                | some v =>
                    intro h1
                    simp only [Option.map_some', hd, Bool.true_and] at h1
                    by_cases hcv : collectibleSpec v = true
                    · rw [if_pos hcv] at h1
                      rcases mutSpec_not_recollected v with hL | ⟨hx, hsk⟩
                      · rw [hL] at h1
                        simp at h1
                      · by_cases hc2 : collectibleSpec (mutSpec v) = true
                        · rw [if_pos hc2] at h1
                          rw [List.mem_singleton] at h1
                          rw [h1]
                          exact ⟨hx, hsk⟩
                        · rw [if_neg hc2] at h1
                          cases h1
                    · rw [if_neg hcv] at h1
                      rw [if_neg (by simpa using hcv)] at h1
                      cases h1
            | inlineTable fs => intro h1; cases h1
            | str s2 => intro h1; cases h1
            | boolean b2 => intro h1; cases h1
            | arr xs => intro h1; cases h1
      · exact ih (fun s2 hs2 => hsub s2 (List.mem_cons_of_mem _ hs2)) o h2

theorem dOccsAll_map (members : List (String × Doc)) (H : String → Bool)
    (d : String) (hd : H d = false)
    (hwfall : ∀ m ∈ members, secWFb m.2 = true) :
    dOccsAll (members.map (fun m => (m.1, mapDocSecs H m.2))) d =
      dOccsAll members d := by
  induction members with
  | nil => rfl
  | cons m rest ih =>
      rw [List.map_cons, dOccsAll_decomp, dOccsAll_decomp]
      try simp only []
      rw [dOccsS_mapDocSecs_not_hoisted SECTIONS m.1 m.2 d H hd
          (fun s hs => hs) (hwfall m (List.mem_cons_self _ _)),
        ih (fun m2 hm2 => hwfall m2 (List.mem_cons_of_mem _ hm2))]

theorem dOccsAll_map_hoisted (members : List (String × Doc)) (H : String → Bool)
    (d : String) (hd : H d = true)
    (hwfall : ∀ m ∈ members, secWFb m.2 = true) :
    ∀ o ∈ dOccsAll (members.map (fun m => (m.1, mapDocSecs H m.2))) d,
      extract_version o.spec = none ∧ isSkipSignal o.spec = false := by
  induction members with
  | nil => intro o ho; cases ho
  | cons m rest ih =>
      intro o ho
      rw [List.map_cons, dOccsAll_decomp] at ho
      rcases List.mem_append.1 ho with h1 | h2
      · exact dOccsS_mapDocSecs_hoisted SECTIONS m.1 m.2 d H hd
          (fun s hs => hs) (hwfall m (List.mem_cons_self _ _)) o h1
      · exact ih (fun m2 hm2 => hwfall m2 (List.mem_cons_of_mem _ hm2)) o h2

theorem resolvedOf_dOccsAll_mapped (members : List (String × Doc))
    (hm : membersWFb members = true) (d : String) :
    resolvedOf (dOccsAll (members.map
      (fun m => (m.1, mapDocSecs (hoistedIn members) m.2))) d) = none := by
  have hwfall := membersWFb_sec members hm
  cases hd : hoistedIn members d with
  | false =>
      rw [dOccsAll_map members (hoistedIn members) d hd hwfall]
      exact resolvedOf_of_not_hoisted members d hd
  | true =>
      exact resolvedOf_eq_none_of_inert _
        (dOccsAll_map_hoisted members (hoistedIn members) d hd hwfall)

/-- C4: `hoist` is idempotent in memory: on a well-formed member tree
(pairwise-distinct member paths, no duplicate keys inside a dependency
section), running the collection/resolution/mutation pipeline a second time
on the first run's output adds nothing to the shared table and rewrites no
member declaration (`added = 0` and `updated = 0`). -/
theorem claim4_hoist_idempotent (root : Doc) (members : List (String × Doc))
    (hm : membersWFb members = true) :
    (hoistCore (hoistCore root members).root
        (hoistCore root members).members).added = 0 ∧
      (hoistCore (hoistCore root members).root
        (hoistCore root members).members).updated = 0 := by
  apply hoistCore_counts_zero
  intro e he
  rw [hoistCore_members root members hm] at he
  have hknd := keys_groupOccs_nodup (collectAll (members.map
    (fun m => (m.1, mapDocSecs (hoistedIn members) m.2))))
  have hkey := getF_of_mem_nodup _ _ _ hknd he
  have hos := getF_groupOccs_some _ _ _ hkey
  rw [hos]
  exact resolvedOf_dOccsAll_mapped members hm e.1

/-- Witness for C4 at a concrete one-member tree. -/
theorem claim4_hoist_idempotent_witness :
    membersWFb [("m", [("dependencies",
        Val.table [("foo", Val.str "1.0")])])] = true ∧
      ((hoistCore (hoistCore [] [("m", [("dependencies",
          Val.table [("foo", Val.str "1.0")])])]).root
          (hoistCore [] [("m", [("dependencies",
          Val.table [("foo", Val.str "1.0")])])]).members).added = 0 ∧
        (hoistCore (hoistCore [] [("m", [("dependencies",
          Val.table [("foo", Val.str "1.0")])])]).root
          (hoistCore [] [("m", [("dependencies",
          Val.table [("foo", Val.str "1.0")])])]).members).updated = 0) :=
  ⟨by decide, claim4_hoist_idempotent [] [("m", [("dependencies",
      Val.table [("foo", Val.str "1.0")])])] (by decide)⟩

end Kintsu
